import Mathlib

/-!
# Verification of the docker-registry-cleanup retention pipeline

Shallow embedding of `src/main.rs` (Rynoxx/docker-registry-cleanup).
Pure functions (`classify_tags`, `get_matching_tags`) are translated
directly; the network-facing pipeline (`get_tag_digest`, the per
repository worker task spawned in `main`, and the orchestration in
`main`) is embedded as explicit state passing over an abstract
registry environment, recording the network calls each run issues.
Rust machine integers that matter here are `usize`/`u64`; they appear
as `Nat` with explicit bounds where the source checks them.
-/

namespace DRC

/-! ## Semantic versions (the `semver` crate as used by the source)

`semver::Version` as consumed by `classify_tags`: parsing
(`Version::parse`) and the total order (`impl Ord for Version`),
including the crate ordering on pre-release and build metadata.
Numeric components are `u64` in the crate; parsing rejects values
of `2 ^ 64` or more, which we keep as an explicit bound.
-/

structure SemVersion where
  major : Nat
  minor : Nat
  patch : Nat
  pre : List String
  build : List String
deriving DecidableEq, Repr

/-- One character of a semver identifier: ASCII alphanumeric or hyphen. -/
def isIdentChar (c : Char) : Bool := c.isAlphanum || c == '-'

/-- Parse a numeric version component: a nonempty digit run, no leading
zero unless the component is exactly `0`, value below `2 ^ 64`. -/
def parseNumeric (l : List Char) : Option (Nat × List Char) :=
  match l.takeWhile Char.isDigit, l.dropWhile Char.isDigit with
  | [], _ => none
  | d :: ds, rest =>
    if d = '0' ∧ ds ≠ [] then none
    else
      let val := (d :: ds).foldl (fun acc c => acc * 10 + (c.toNat - 48)) 0
      if val < 18446744073709551616 then some (val, rest) else none

/-- Consume one expected character. -/
def expectChar (c : Char) : List Char → Option (List Char)
  | x :: rest => if x = c then some rest else none
  | [] => none

/-- Grab a nonempty run of identifier characters. -/
def grabIdent (l : List Char) : Option (List Char × List Char) :=
  match l.takeWhile isIdentChar, l.dropWhile isIdentChar with
  | [], _ => none
  | c :: cs, rest => some (c :: cs, rest)

/-- A valid pre-release identifier: if it is all digits it must not have
a leading zero (unless it is exactly `0`). -/
def validPreIdent (id : List Char) : Bool :=
  match id with
  | [] => false
  | c :: cs => if (c :: cs).all Char.isDigit then cs.isEmpty || c != '0' else true

/-- Dot-separated identifier list, one or more identifiers, each
accepted by `valid`.  The fuel argument is always called with more fuel
than characters, so it never runs out. -/
def parseIdents (valid : List Char → Bool) : Nat → List Char → Option (List String × List Char)
  | 0, _ => none
  | fuel + 1, l =>
    match grabIdent l with
    | none => none
    | some (id, rest) =>
      if valid id then
        match rest with
        | '.' :: rest2 =>
          match parseIdents valid fuel rest2 with
          | none => none
          | some (ids, rest3) => some (String.mk id :: ids, rest3)
        | _ => some ([String.mk id], rest)
      else none

/-- `semver::Version::parse`: `major.minor.patch`, optional `-` pre-release
identifiers, optional `+` build identifiers, nothing trailing. -/
def parseVersion (s : String) : Option SemVersion :=
  match parseNumeric s.data with
  | none => none
  | some (major, r1) =>
  match expectChar '.' r1 with
  | none => none
  | some r2 =>
  match parseNumeric r2 with
  | none => none
  | some (minor, r3) =>
  match expectChar '.' r3 with
  | none => none
  | some r4 =>
  match parseNumeric r4 with
  | none => none
  | some (patch, r5) =>
  match r5 with
  | [] => some ⟨major, minor, patch, [], []⟩
  | '-' :: r6 =>
    match parseIdents validPreIdent (r6.length + 1) r6 with
    | none => none
    | some (pre, r7) =>
      match r7 with
      | [] => some ⟨major, minor, patch, pre, []⟩
      | '+' :: r8 =>
        match parseIdents (fun _ => true) (r8.length + 1) r8 with
        | none => none
        | some (build, r9) =>
          if r9.isEmpty then some ⟨major, minor, patch, pre, build⟩ else none
      | _ => none
  | '+' :: r6 =>
    match parseIdents (fun _ => true) (r6.length + 1) r6 with
    | none => none
    | some (build, r7) =>
      if r7.isEmpty then some ⟨major, minor, patch, [], build⟩ else none
  | _ => none

/-! ### The crate order on versions -/

/-- Three-way comparison on `Nat`. -/
def compareNat (a b : Nat) : Ordering :=
  if a < b then .lt else if b < a then .gt else .eq

/-- Byte-wise (here: code-point-wise, which agrees on UTF-8) comparison
of character lists, as Rust `str::cmp`. -/
def compareCharList : List Char → List Char → Ordering
  | [], [] => .eq
  | [], _ :: _ => .lt
  | _ :: _, [] => .gt
  | x :: xs, y :: ys => (compareNat x.toNat y.toNat).then (compareCharList xs ys)

/-- One pre-release identifier against another: numeric identifiers
compare numerically (length, then digits) and sort below alphanumeric
ones; alphanumeric identifiers compare byte-wise. -/
def comparePreIdent (a b : List Char) : Ordering :=
  match a.all Char.isDigit, b.all Char.isDigit with
  | true, true => (compareNat a.length b.length).then (compareCharList a b)
  | true, false => .lt
  | false, true => .gt
  | false, false => compareCharList a b

/-- Walk two nonempty pre-release identifier lists. -/
def comparePreList : List String → List String → Ordering
  | [], [] => .eq
  | [], _ :: _ => .lt
  | _ :: _, [] => .gt
  | x :: xs, y :: ys => (comparePreIdent x.data y.data).then (comparePreList xs ys)

/-- `Ord` on `semver::Prerelease`: the empty pre-release (a real release)
compares above any nonempty one. -/
def comparePre (a b : List String) : Ordering :=
  match a, b with
  | [], [] => .eq
  | [], _ :: _ => .gt
  | _ :: _, [] => .lt
  | _, _ => comparePreList a b

/-- One build identifier against another, per the crate
(`0 < 00 < 1 < 01 < 001 < 2`): all-digit identifiers compare by their
zero-trimmed value and then by original length, digits sort below
alphanumerics, alphanumerics compare byte-wise. -/
def compareBuildIdent (a b : List Char) : Ordering :=
  match a.all Char.isDigit, b.all Char.isDigit with
  | true, true =>
    let a2 := a.dropWhile (· == '0')
    let b2 := b.dropWhile (· == '0')
    ((compareNat a2.length b2.length).then (compareCharList a2 b2)).then
      (compareNat a.length b.length)
  | true, false => .lt
  | false, true => .gt
  | false, false => compareCharList a b

/-- `Ord` on `semver::BuildMetadata`. -/
def compareBuild : List String → List String → Ordering
  | [], [] => .eq
  | [], _ :: _ => .lt
  | _ :: _, [] => .gt
  | x :: xs, y :: ys => (compareBuildIdent x.data y.data).then (compareBuild xs ys)

/-- `Ord` on `semver::Version`: major, minor, patch, pre-release, build. -/
def compareVersion (a b : SemVersion) : Ordering :=
  ((((compareNat a.major b.major).then (compareNat a.minor b.minor)).then
    (compareNat a.patch b.patch)).then (comparePre a.pre b.pre)).then
    (compareBuild a.build b.build)

/-! ## `classify_tags` (src/main.rs lines 149-173) -/

/-- Insert keeping the list ordered by `ge` (greatest first). -/
def insertDesc {α : Type} (ge : α → α → Bool) (x : α) : List α → List α
  | [] => [x]
  | y :: ys => if ge x y then x :: y :: ys else y :: insertDesc ge x ys

/-- Descending sort; the embedding of `sort_unstable_by` with a
reversed comparator. -/
def sortDesc {α : Type} (ge : α → α → Bool) : List α → List α
  | [] => []
  | x :: xs => insertDesc ge x (sortDesc ge xs)

/-- The comparator `|(a, _), (b, _)| b.cmp(a)` on `(Version, String)`
pairs, as a not-after test for the descending sort. -/
def geVer (p q : SemVersion × String) : Bool :=
  match compareVersion q.1 p.1 with
  | .gt => false
  | _ => true

/-- The comparator `|a, b| b.cmp(a)` on tag strings. -/
def geStr (a b : String) : Bool :=
  match compareCharList b.data a.data with
  | .gt => false
  | _ => true

/-- `tag.trim_start_matches('v')`: remove every leading `v`. -/
def trimV (s : String) : String := String.mk (s.data.dropWhile (· == 'v'))

/-- The `filter_map` of `classify_tags` in semver mode: tags paired with
their parsed versions, parse failures dropped. -/
def semverPairs (tags : List String) : List (SemVersion × String) :=
  tags.filterMap (fun tag => (parseVersion (trimV tag)).map (fun v => (v, tag)))

/-- The tags that survive semver filtering. -/
def semverFilter (tags : List String) : List String :=
  tags.filter (fun tag => (parseVersion (trimV tag)).isSome)

/-- The sorted working list of `classify_tags`: in semver mode the
parseable tags sorted by version descending, otherwise all tags sorted
lexicographically descending. -/
def rankedTags (sv : Bool) (tags : List String) : List String :=
  if sv then (sortDesc geVer (semverPairs tags)).map Prod.snd
  else sortDesc geStr tags

/-- The mode filter: semver mode keeps only parseable tags,
lexicographic mode keeps everything. -/
def modeFilter (sv : Bool) (tags : List String) : List String :=
  if sv then semverFilter tags else tags

/-- Descending order between two adjacent output tags: in semver mode
the later tag's version does not exceed the earlier one's, otherwise
the later tag does not exceed the earlier one byte-wise. -/
def tagDescGe (sv : Bool) (a b : String) : Prop :=
  if sv then
    ∀ va vb, parseVersion (trimV a) = some va → parseVersion (trimV b) = some vb →
      compareVersion vb va ≠ Ordering.gt
  else compareCharList b.data a.data ≠ Ordering.gt

/-- `classify_tags(tags, num_tags, semver)`.  The slice bound `n` is
taken from the unfiltered input length, exactly as in the source; the
slices `sorted[..n]` / `sorted[n..]` panic when `n` exceeds the sorted
length, which the embedding renders as `none`. -/
def classify_tags (tags : List String) (num_tags : Nat) (semver : Bool) :
    Option (List String × List String) :=
  let n := min num_tags tags.length
  let sorted := rankedTags semver tags
  if n ≤ sorted.length then some (sorted.take n, sorted.drop n) else none

/-- Strip a single optional leading `v`.  Modelled from the claim
wording ("removing a single optional leading v character") to compare
against the trim-all behaviour of the source. -/
def stripOneLeadingV (s : String) : String :=
  match s.data with
  | 'v' :: rest => String.mk rest
  | _ => s

/-! ## `get_matching_tags` (src/main.rs lines 177-194)

The `HashMap<String, Vec<String>>` is embedded as an association list
with the entry-api update semantics (`entry(..).or_default().push(..)`);
bucket contents and key sets are what the claims are about, and those
are iteration-order independent. -/

/-- `matching_tags.entry(key).or_default().push(tag)`. -/
def addToBucket : List (String × List String) → String → String → List (String × List String)
  | [], key, tag => [(key, [tag])]
  | (k, ts) :: rest, key, tag =>
    if k = key then (k, ts ++ [tag]) :: rest else (k, ts) :: addToBucket rest key tag

/-- A compiled rule: the raw pattern string paired with its matcher
(`Regex::is_match` kept abstract as a boolean predicate). -/
abbrev Rule := String × (String → Bool)

/-- One inner-loop iteration of `get_matching_tags`: try one rule
against one tag. -/
def tagStep (tag : String) (m : List (String × List String)) (rt : Rule) :
    List (String × List String) :=
  if rt.2 tag then addToBucket m rt.1 tag else m

/-- `get_matching_tags(tag_list, regex_tags)`: empty rule list gives the
single wildcard bucket, otherwise each tag is appended to the bucket of
every rule whose matcher accepts it. -/
def get_matching_tags (tags : List String) (regex_tags : List Rule) :
    List (String × List String) :=
  if regex_tags.isEmpty then [(".*", tags)]
  else tags.foldl (fun m tag => regex_tags.foldl (tagStep tag) m) []

/-- Bucket lookup by name. -/
def bucketOf (m : List (String × List String)) (key : String) : Option (List String) :=
  (m.find? (fun e => e.1 = key)).map (fun e => e.2)

/-! ## `get_tag_digest` (src/main.rs lines 93-124)

The HTTP layer is embedded as an abstract response (status code plus
header list, header names already lowercased as reqwest stores them).
`error_for_status` fails on status 400-599; the 404 check precedes it.
A present header whose value is not valid UTF-8 is out of scope here
(Lean strings are always valid), noted at the `to_str().ok()` step. -/

structure HttpResponse where
  status : Nat
  headers : List (String × String)
deriving DecidableEq, Repr

/-- `get_tag_digest` on an already-received response: `Ok(None)` for 404,
`Err` for any other 400-599 status, otherwise the first
`docker-content-digest` header value (or `Ok(None)` if absent). -/
def get_tag_digest (resp : HttpResponse) : Except String (Option String) :=
  if resp.status = 404 then .ok none
  else if 400 ≤ resp.status ∧ resp.status ≤ 599 then .error "HTTP status error"
  else .ok ((resp.headers.find? (fun h => h.1 = "docker-content-digest")).map (fun h => h.2))

/-! ## The repository worker and the orchestrator (src/main.rs main)

The registry and the regex compiler are abstract oracles; each run
records the network calls it issues, so that frame claims (dry-run
issues no deletions, rule failures issue no calls at all) are statable.
A Rust panic (the out-of-bounds slice in `classify_tags`) is a distinct
outcome: the tokio task dies and `main` aborts on the `JoinError`. -/

inductive NetCall where
  | catalog : NetCall
  | tagList : String → NetCall
  | digest : String → String → NetCall
  | deleteManifest : String → String → NetCall
deriving DecidableEq, Repr

structure Env where
  compile : String → Except String (String → Bool)
  catalog : Except String (List String)
  tagList : String → Except String (List String)
  digest : String → String → Except String (Option String)
  deleteTag : String → String → Except String Unit

inductive WorkerOutcome where
  | ok : List String → Nat → WorkerOutcome
  | failed : String → WorkerOutcome
  | panicked : WorkerOutcome
deriving DecidableEq, Repr

inductive Halt where
  | errored : String → Halt
  | panicked : Halt
deriving DecidableEq, Repr

/-- Log line: tag digest missing (source line 276). -/
def warnLine (repo tag : String) : String :=
  "[" ++ repo ++ "] WARNING: Couldn\x27t find tag digest for " ++ tag

/-- Log line: tag marked for deletion (source line 269). -/
def toDeleteLine (repo tag : String) : String :=
  "[" ++ repo ++ "] tag to be deleted " ++ tag

/-- Log line: tag deleted (source line 273). -/
def deletedLine (repo tag : String) : String :=
  "[" ++ repo ++ "] Deleted " ++ tag

/-- Log line: bucket summary (source line 263). -/
def foundLine (repo : String) (n : Nat) (pat : String) : String :=
  "[" ++ repo ++ "] Found " ++ toString n ++ " tags eligable for deletion for pattern /" ++ pat ++ "/"

/-- Log line: nothing to do (source lines 253 and 283). -/
def noEligibleLine (repo : String) : String :=
  "[" ++ repo ++ "] No tags eligable for deletion found."

/-- The sequential per-tag loop over one bucket remove-set (source lines
265-278): resolve the digest; on a clean not-found log a warning; on a
digest present log the deletion notice and, in execute mode, issue the
delete call.  Returns the calls issued, the log lines pushed, and the
error that aborted the worker, if any. -/
def runTags (env : Env) (repo : String) (del : Bool) :
    List String → List NetCall × List String × Option String
  | [] => ([], [], none)
  | tag :: rest =>
    match env.digest repo tag with
    | .error e => ([NetCall.digest repo tag], [], some e)
    | .ok none =>
      let r := runTags env repo del rest
      (NetCall.digest repo tag :: r.1, warnLine repo tag :: r.2.1, r.2.2)
    | .ok (some d) =>
      if del then
        match env.deleteTag repo d with
        | .error e =>
          ([NetCall.digest repo tag, NetCall.deleteManifest repo d], [toDeleteLine repo tag], some e)
        | .ok _ =>
          let r := runTags env repo del rest
          (NetCall.digest repo tag :: NetCall.deleteManifest repo d :: r.1,
           toDeleteLine repo tag :: deletedLine repo tag :: r.2.1, r.2.2)
      else
        let r := runTags env repo del rest
        (NetCall.digest repo tag :: r.1, toDeleteLine repo tag :: r.2.1, r.2.2)

/-- The per-bucket loop (source lines 255-280): classify, and when the
remove-set is nonempty bump the count by its size, log the summary line
and walk the remove-set.  A `classify_tags` panic halts the task. -/
def runBuckets (env : Env) (repo : String) (maxPerTag : Nat) (sv del : Bool) :
    List (String × List String) → List NetCall × List String × Nat × Option Halt
  | [] => ([], [], 0, none)
  | (pat, btags) :: rest =>
    match classify_tags btags maxPerTag sv with
    | none => ([], [], 0, some Halt.panicked)
    | some (_keep, remove) =>
      if remove.isEmpty then runBuckets env repo maxPerTag sv del rest
      else
        match runTags env repo del remove with
        | (tr1, lg1, some e) =>
          (tr1, foundLine repo remove.length pat :: lg1, remove.length, some (Halt.errored e))
        | (tr1, lg1, none) =>
          match runBuckets env repo maxPerTag sv del rest with
          | (tr2, lg2, c2, h2) =>
            (tr1 ++ tr2, (foundLine repo remove.length pat :: lg1) ++ lg2,
             remove.length + c2, h2)

/-- One spawned repository worker (source lines 245-288): fetch the tag
list, classify into buckets, process every bucket; an empty bucket map
or a zero count yields the no-eligible-tags line. -/
def runWorker (env : Env) (regexTags : List Rule) (maxPerTag : Nat) (sv del : Bool)
    (repo : String) : List NetCall × WorkerOutcome :=
  match env.tagList repo with
  | .error e => ([NetCall.tagList repo], .failed e)
  | .ok tags =>
    let buckets := get_matching_tags tags regexTags
    if buckets.isEmpty then ([NetCall.tagList repo], .ok [noEligibleLine repo] 0)
    else
      match runBuckets env repo maxPerTag sv del buckets with
      | (tr, _, _, some Halt.panicked) => (NetCall.tagList repo :: tr, .panicked)
      | (tr, _, _, some (Halt.errored e)) => (NetCall.tagList repo :: tr, .failed e)
      | (tr, lg, c, none) =>
        (NetCall.tagList repo :: tr,
         .ok (if c = 0 then lg ++ [noEligibleLine repo] else lg) c)

/-- `args.tags.iter().map(|t| Regex::new(t).map(|r| (t.clone(), r))).collect()`:
compile each pattern in order, short-circuiting at the first failure. -/
def compileRules (compile : String → Except String (String → Bool)) :
    List String → Except String (List Rule)
  | [] => .ok []
  | p :: ps =>
    match compile p with
    | .error e => .error e
    | .ok m =>
      match compileRules compile ps with
      | .error e => .error e
      | .ok ms => .ok ((p, m) :: ms)

/-- Count contributed by one worker outcome when drained. -/
def workerCount : WorkerOutcome → Nat
  | .ok _ c => c
  | _ => 0

/-- Error contributed by one worker outcome when drained. -/
def workerErr : WorkerOutcome → Option String
  | .failed e => some e
  | _ => none

/-- Log printed for one worker outcome when drained. -/
def workerLog : WorkerOutcome → List String
  | .ok lg _ => lg
  | _ => []

/-- The repository admission filter (source line 234): admitted when no
image rules are configured or any image rule matches. -/
def admitted (regexImages : List Rule) (repos : List String) : List String :=
  repos.filter (fun repo => regexImages.isEmpty || regexImages.any (fun ri => ri.2 repo))

/-- Skip notice for a non-admitted repository (source line 235). -/
def skipLine : String := "Image doesn\x27t match any of the images specified."

/-- The aggregated error block (source line 305). -/
def errorBlock (errs : List String) : String :=
  "The following errors occured during processing:\n\t" ++ String.intercalate "\n\t" errs ++ "\n"

/-- The final summary lines (source lines 308-314). -/
def summaryLines (del : Bool) (total : Nat) : List String :=
  if del then
    ["\n\tDeleted a total of " ++ toString total ++ " tag(s)",
     "\n\tRemember to run garbage collection on your registry to ensure that files get removed on disk."]
  else
    ["\n\tFound a total of " ++ toString total ++ " tag(s) to delete",
     "\n\tDelete flag (-d/--delete) not specified, none of the above have actually been deleted."]

structure MainOk where
  total : Nat
  errors : List String
  printed : List String
deriving DecidableEq, Repr

/-- The whole `main` after argument parsing: compile both rule sets
(tag rules first), fetch the catalog, run one worker per admitted
repository, drain the outcomes into the total count, error list and
printed transcript.  The drain order of the `JoinSet` is not
deterministic in the source; the embedding drains in admission order,
which the claims (sums, error multiset, block structure) do not depend
on.  A panicked worker surfaces as the `JoinError` that aborts `main`
before a summary is printed. -/
def runMain (env : Env) (tagPats imagePats : List String) (maxPerTag : Nat) (sv del : Bool) :
    List NetCall × Except String MainOk :=
  match compileRules env.compile tagPats with
  | .error e => ([], .error ("Invalid tag regex: " ++ e))
  | .ok regexTags =>
    match compileRules env.compile imagePats with
    | .error e => ([], .error ("Invalid tag regex: " ++ e))
    | .ok regexImages =>
      match env.catalog with
      | .error e => ([NetCall.catalog], .error e)
      | .ok repos =>
        let skipped := repos.filter
          (fun repo => !(regexImages.isEmpty || regexImages.any (fun ri => ri.2 repo)))
        let results := (admitted regexImages repos).map
          (fun repo => runWorker env regexTags maxPerTag sv del repo)
        let trace := NetCall.catalog :: results.flatMap Prod.fst
        if results.any (fun r => r.2 = WorkerOutcome.panicked) then
          (trace, .error "worker task panicked")
        else
          let total := (results.map (fun r => workerCount r.2)).sum
          let errs := results.filterMap (fun r => workerErr r.2)
          let printed := skipped.map (fun _ => skipLine)
            ++ results.flatMap (fun r => workerLog r.2)
            ++ (if errs.isEmpty then [] else [errorBlock errs])
            ++ summaryLines del total
          (trace, .ok ⟨total, errs, printed⟩)

/-- Is this call a manifest DELETE? -/
def isDeleteCall : NetCall → Bool
  | .deleteManifest _ _ => true
  | _ => false

/-- The delete call a digest call would give rise to in execute mode,
if its resolution succeeded with a digest. -/
def resolveOf (env : Env) : NetCall → Option NetCall
  | .digest r t =>
    match env.digest r t with
    | .ok (some d) => some (NetCall.deleteManifest r d)
    | _ => none
  | _ => none

/-- The delete call a remove-set tag gives rise to, if its digest
resolves. -/
def tagResolve (env : Env) (repo tag : String) : Option NetCall :=
  match env.digest repo tag with
  | .ok (some d) => some (NetCall.deleteManifest repo d)
  | _ => none

/-- The remove-set of a classification result (empty on panic, which
never coexists with a completed worker). -/
def removesOf : Option (List String × List String) → List String
  | some pr => pr.2
  | none => []

/-- How appending one tag list worth of matches extends a bucket. -/
def combineB : Option (List String) → List String → Option (List String)
  | some l, fs => some (l ++ fs)
  | none, [] => none
  | none, f :: fs => some (f :: fs)

/-! ### Concrete registry environments used to witness the theorems -/

/-- A registry with one repository, two tags, and every digest lookup
reporting a clean not-found. -/
def env3 : Env :=
  ⟨fun _ => Except.ok (fun _ => true), Except.ok ["r"],
   fun _ => Except.ok ["b", "a"], fun _ _ => Except.ok none, fun _ _ => Except.ok ()⟩

/-- A registry where every digest resolves and deletion succeeds. -/
def env6 : Env :=
  ⟨fun _ => Except.ok (fun _ => true), Except.ok ["good"],
   fun _ => Except.ok ["t2", "t1"],
   fun _ t => Except.ok (some ("sha:" ++ t)), fun _ _ => Except.ok ()⟩

/-- A regex compiler that rejects the pattern `(` and accepts anything
else with a matcher that always matches. -/
def compile7 (p : String) : Except String (String → Bool) :=
  if p = "(" then Except.error "unclosed group" else Except.ok (fun _ => true)

/-- An environment using `compile7` whose catalog would answer if asked. -/
def env7 : Env :=
  ⟨compile7, Except.ok ["repo1"], fun _ => Except.ok [],
   fun _ _ => Except.ok none, fun _ _ => Except.ok ()⟩

/-- A registry with one failing and one healthy repository. -/
def env8 : Env :=
  ⟨fun _ => Except.ok (fun _ => true), Except.ok ["bad", "good"],
   fun r => if r = "bad" then Except.error "fetch failed" else Except.ok ["t2", "t1"],
   fun _ t => Except.ok (some ("sha:" ++ t)), fun _ _ => Except.ok ()⟩

/-- HTTP responses that always succeed with status 200 and no headers. -/
def resp10 : String → String → HttpResponse := fun _ _ => ⟨200, []⟩

/-- An environment whose digest oracle is `get_tag_digest` over
`resp10`. -/
def env10 : Env :=
  ⟨fun _ => Except.ok (fun _ => true), Except.ok [], fun _ => Except.ok [],
   fun r t => get_tag_digest (resp10 r t), fun _ _ => Except.ok ()⟩

/-! ## Lemmas about the descending sort and the semver filter -/

theorem insertDesc_perm {α : Type} (ge : α → α → Bool) (x : α) (l : List α) :
    (insertDesc ge x l).Perm (x :: l) := by
  induction l with
  | nil => simp [insertDesc]
  | cons y ys ih =>
    by_cases h : ge x y
    · simp [insertDesc, h]
    · simp only [insertDesc, h, if_false, Bool.false_eq_true]
      exact (ih.cons y).trans (List.Perm.swap x y ys)

theorem sortDesc_perm {α : Type} (ge : α → α → Bool) (l : List α) :
    (sortDesc ge l).Perm l := by
  induction l with
  | nil => simp [sortDesc]
  | cons x xs ih => exact (insertDesc_perm ge x (sortDesc ge xs)).trans (ih.cons x)

theorem map_snd_semverPairs (tags : List String) :
    (semverPairs tags).map Prod.snd = semverFilter tags := by
  induction tags with
  | nil => rfl
  | cons t ts ih =>
    cases hp : parseVersion (trimV t) with
    | none => simp [semverPairs, semverFilter, List.filterMap_cons, hp] at ih ⊢; exact ih
    | some v => simp [semverPairs, semverFilter, List.filterMap_cons, hp] at ih ⊢; exact ih

theorem rankedTags_perm (sv : Bool) (tags : List String) :
    (rankedTags sv tags).Perm (modeFilter sv tags) := by
  cases sv with
  | false => simpa [rankedTags, modeFilter] using sortDesc_perm geStr tags
  | true =>
    have h := (sortDesc_perm geVer (semverPairs tags)).map Prod.snd
    rw [map_snd_semverPairs] at h
    simpa [rankedTags, modeFilter] using h

theorem length_rankedTags (sv : Bool) (tags : List String) :
    (rankedTags sv tags).length = (modeFilter sv tags).length :=
  (rankedTags_perm sv tags).length_eq

theorem length_modeFilter_le (sv : Bool) (tags : List String) :
    (modeFilter sv tags).length ≤ tags.length := by
  cases sv with
  | false => exact Nat.le_refl _
  | true => simpa [modeFilter, semverFilter] using List.length_filter_le _ tags

theorem nodup_modeFilter (sv : Bool) {tags : List String} (h : tags.Nodup) :
    (modeFilter sv tags).Nodup := by
  cases sv with
  | false => exact h
  | true => exact h.filter _

theorem classify_tags_eq_ranked (tags : List String) (k : Nat) (sv : Bool)
    (kp rm : List String) (h : classify_tags tags k sv = some (kp, rm)) :
    kp ++ rm = rankedTags sv tags := by
  by_cases hc : min k tags.length ≤ (rankedTags sv tags).length
  · simp only [classify_tags, hc, if_true] at h
    obtain ⟨h1, h2⟩ := Prod.mk.injEq .. ▸ Option.some.inj h
    rw [← h1, ← h2, List.take_append_drop]
  · simp [classify_tags, hc] at h

/-! ## The comparators are total preorders

`sort_unstable_by` assumes its comparator is a total order; the crate
comparators used by `classify_tags` are.  These lemmas establish the
swap symmetry, equality reflection and transitivity needed to prove
the sorted output really is descending. -/

theorem ordThen_swap (o1 o2 : Ordering) : (o1.then o2).swap = o1.swap.then o2.swap := by
  cases o1 <;> rfl

theorem ordThen_eq_lt {o1 o2 : Ordering} :
    o1.then o2 = .lt ↔ o1 = .lt ∨ (o1 = .eq ∧ o2 = .lt) := by
  cases o1 <;> simp [Ordering.then]

theorem ordThen_eq_eq {o1 o2 : Ordering} :
    o1.then o2 = .eq ↔ o1 = .eq ∧ o2 = .eq := by
  cases o1 <;> simp [Ordering.then]

/-- Transitivity of a lexicographic pair of comparators, given
congruence and transitivity of the first and transitivity of the
second. -/
theorem ordThen_lt_trans {α : Type} (f g : α → α → Ordering)
    (hfe : ∀ {a b}, f a b = .eq → ∀ c, f a c = f b c ∧ f c a = f c b)
    (hft : ∀ {a b c}, f a b = .lt → f b c = .lt → f a c = .lt)
    (hgt : ∀ {a b c}, g a b = .lt → g b c = .lt → g a c = .lt)
    {a b c : α} (h1 : (f a b).then (g a b) = .lt) (h2 : (f b c).then (g b c) = .lt) :
    (f a c).then (g a c) = .lt := by
  rcases ordThen_eq_lt.mp h1 with hf1 | ⟨hf1, hg1⟩ <;>
    rcases ordThen_eq_lt.mp h2 with hf2 | ⟨hf2, hg2⟩
  · exact ordThen_eq_lt.mpr (Or.inl (hft hf1 hf2))
  · exact ordThen_eq_lt.mpr (Or.inl (((hfe hf2 a).2).symm ▸ hf1))
  · exact ordThen_eq_lt.mpr (Or.inl (((hfe hf1 c).1) ▸ hf2))
  · refine ordThen_eq_lt.mpr (Or.inr ⟨?_, hgt hg1 hg2⟩)
    rw [(hfe hf1 c).1, hf2]

/-- Congruence of a lexicographic pair of comparators. -/
theorem ordThen_congr {α : Type} (f g : α → α → Ordering)
    (hfe : ∀ {a b}, f a b = .eq → ∀ c, f a c = f b c ∧ f c a = f c b)
    (hge : ∀ {a b}, g a b = .eq → ∀ c, g a c = g b c ∧ g c a = g c b)
    {a b : α} (h : (f a b).then (g a b) = .eq) (c : α) :
    (f a c).then (g a c) = (f b c).then (g b c) ∧
    (f c a).then (g c a) = (f c b).then (g c b) := by
  obtain ⟨hf, hg⟩ := ordThen_eq_eq.mp h
  rw [(hfe hf c).1, (hfe hf c).2, (hge hg c).1, (hge hg c).2]
  exact ⟨rfl, rfl⟩

theorem compareNat_lt_iff {a b : Nat} : compareNat a b = .lt ↔ a < b := by
  unfold compareNat
  split_ifs with h1 h2 <;> simp_all

theorem compareNat_eq_iff {a b : Nat} : compareNat a b = .eq ↔ a = b := by
  unfold compareNat
  split_ifs with h1 h2 <;> simp_all <;> omega

theorem compareNat_swap (a b : Nat) : compareNat a b = (compareNat b a).swap := by
  unfold compareNat
  rcases Nat.lt_trichotomy a b with h | rfl | h
  · rw [if_pos h, if_neg (Nat.lt_asymm h), if_pos h]
    rfl
  · rw [if_neg (Nat.lt_irrefl a), if_neg (Nat.lt_irrefl a)]
    rfl
  · rw [if_neg (Nat.lt_asymm h), if_pos h, if_pos h]
    rfl

theorem compareNat_lt_trans {a b c : Nat} (h1 : compareNat a b = .lt)
    (h2 : compareNat b c = .lt) : compareNat a c = .lt := by
  rw [compareNat_lt_iff] at h1 h2 ⊢
  omega

theorem compareChar_eq {x y : Char} (h : compareNat x.toNat y.toNat = .eq) : x = y :=
  Char.eq_of_val_eq (UInt32.toNat.inj (compareNat_eq_iff.mp h))

theorem compareCharList_swap (a b : List Char) :
    compareCharList a b = (compareCharList b a).swap := by
  induction a generalizing b with
  | nil => cases b <;> rfl
  | cons x xs ih =>
    cases b with
    | nil => rfl
    | cons y ys =>
      show (compareNat x.toNat y.toNat).then (compareCharList xs ys) =
        ((compareNat y.toNat x.toNat).then (compareCharList ys xs)).swap
      rw [ordThen_swap, ih ys, compareNat_swap x.toNat y.toNat]

theorem compareCharList_eq : ∀ {a b : List Char}, compareCharList a b = .eq → a = b
  | [], [], _ => rfl
  | [], _ :: _, h => by cases h
  | _ :: _, [], h => by cases h
  | x :: xs, y :: ys, h => by
    obtain ⟨h1, h2⟩ := ordThen_eq_eq.mp h
    rw [compareChar_eq h1, compareCharList_eq h2]

theorem compareCharList_lt_trans :
    ∀ {a b c : List Char}, compareCharList a b = .lt → compareCharList b c = .lt →
      compareCharList a c = .lt
  | [], [], _, h1, _ => by cases h1
  | [], _ :: _, [], _, h2 => by cases h2
  | [], _ :: _, _ :: _, _, _ => rfl
  | _ :: _, [], _, h1, _ => by cases h1
  | _ :: _, _ :: _, [], _, h2 => by cases h2
  | x :: xs, y :: ys, z :: zs, h1, h2 => by
    have hf : ∀ {u v : Char}, compareNat u.toNat v.toNat = .eq →
        ∀ w : Char, compareNat u.toNat w.toNat = compareNat v.toNat w.toNat ∧
          compareNat w.toNat u.toNat = compareNat w.toNat v.toNat := by
      intro u v hu w
      rw [compareChar_eq hu]
      exact ⟨rfl, rfl⟩
    rcases ordThen_eq_lt.mp h1 with ha | ⟨ha, ha2⟩ <;>
      rcases ordThen_eq_lt.mp h2 with hb | ⟨hb, hb2⟩
    · exact ordThen_eq_lt.mpr (Or.inl (compareNat_lt_trans ha hb))
    · rw [compareChar_eq hb] at ha
      exact ordThen_eq_lt.mpr (Or.inl ha)
    · rw [← compareChar_eq ha] at hb
      exact ordThen_eq_lt.mpr (Or.inl hb)
    · rw [compareChar_eq ha, compareChar_eq hb]
      exact ordThen_eq_lt.mpr
        (Or.inr ⟨compareNat_eq_iff.mpr rfl, compareCharList_lt_trans ha2 hb2⟩)

theorem comparePreIdent_swap (a b : List Char) :
    comparePreIdent a b = (comparePreIdent b a).swap := by
  cases ha : a.all Char.isDigit <;> cases hb : b.all Char.isDigit <;>
    simp only [comparePreIdent, ha, hb]
  · exact compareCharList_swap a b
  · rfl
  · rfl
  · rw [ordThen_swap, ← compareNat_swap, ← compareCharList_swap]

theorem comparePreIdent_eq {a b : List Char} (h : comparePreIdent a b = .eq) : a = b := by
  cases ha : a.all Char.isDigit <;> cases hb : b.all Char.isDigit <;>
    simp only [comparePreIdent, ha, hb] at h
  · exact compareCharList_eq h
  · cases h
  · cases h
  · exact compareCharList_eq (ordThen_eq_eq.mp h).2

theorem comparePreIdent_lt_trans {a b c : List Char} (h1 : comparePreIdent a b = .lt)
    (h2 : comparePreIdent b c = .lt) : comparePreIdent a c = .lt := by
  have hfe : ∀ {x y : List Char}, compareNat x.length y.length = .eq →
      ∀ z : List Char, compareNat x.length z.length = compareNat y.length z.length ∧
        compareNat z.length x.length = compareNat z.length y.length := by
    intro x y hu z
    rw [compareNat_eq_iff.mp hu]
    exact ⟨rfl, rfl⟩
  have hft : ∀ {x y z : List Char}, compareNat x.length y.length = .lt →
      compareNat y.length z.length = .lt → compareNat x.length z.length = .lt := by
    intro x y z hx hy
    exact compareNat_lt_trans hx hy
  cases ha : a.all Char.isDigit <;> cases hb : b.all Char.isDigit <;>
    cases hc : c.all Char.isDigit <;>
    simp only [comparePreIdent, ha, hb, hc] at h1 h2 ⊢ <;>
    first
    | rfl
    | exact absurd h1 (by decide)
    | exact absurd h2 (by decide)
    | exact compareCharList_lt_trans h1 h2
    | exact ordThen_lt_trans (fun x y : List Char => compareNat x.length y.length)
        compareCharList hfe hft (fun hx hy => compareCharList_lt_trans hx hy) h1 h2

theorem comparePreList_swap : ∀ (a b : List String),
    comparePreList a b = (comparePreList b a).swap
  | [], [] => rfl
  | [], _ :: _ => rfl
  | _ :: _, [] => rfl
  | x :: xs, y :: ys => by
    show (comparePreIdent x.data y.data).then (comparePreList xs ys) =
      ((comparePreIdent y.data x.data).then (comparePreList ys xs)).swap
    rw [ordThen_swap, comparePreList_swap xs ys, comparePreIdent_swap x.data y.data]

theorem comparePreList_eq : ∀ {a b : List String}, comparePreList a b = .eq → a = b
  | [], [], _ => rfl
  | [], _ :: _, h => by cases h
  | _ :: _, [], h => by cases h
  | x :: xs, y :: ys, h => by
    obtain ⟨h1, h2⟩ := ordThen_eq_eq.mp h
    rw [String.ext (comparePreIdent_eq h1), comparePreList_eq h2]

theorem comparePreList_lt_trans :
    ∀ {a b c : List String}, comparePreList a b = .lt → comparePreList b c = .lt →
      comparePreList a c = .lt
  | [], [], _, h1, _ => by cases h1
  | [], _ :: _, [], _, h2 => by cases h2
  | [], _ :: _, _ :: _, _, _ => rfl
  | _ :: _, [], _, h1, _ => by cases h1
  | _ :: _, _ :: _, [], _, h2 => by cases h2
  | x :: xs, y :: ys, z :: zs, h1, h2 => by
    rcases ordThen_eq_lt.mp h1 with ha | ⟨ha, ha2⟩ <;>
      rcases ordThen_eq_lt.mp h2 with hb | ⟨hb, hb2⟩
    · exact ordThen_eq_lt.mpr (Or.inl (comparePreIdent_lt_trans ha hb))
    · have hyz := String.ext (comparePreIdent_eq hb)
      rw [← hyz]
      exact ordThen_eq_lt.mpr (Or.inl ha)
    · have hxy := String.ext (comparePreIdent_eq ha)
      rw [hxy]
      exact ordThen_eq_lt.mpr (Or.inl hb)
    · have hxy := String.ext (comparePreIdent_eq ha)
      rw [hxy]
      exact ordThen_eq_lt.mpr (Or.inr ⟨hb, comparePreList_lt_trans ha2 hb2⟩)

theorem comparePre_swap : ∀ (a b : List String), comparePre a b = (comparePre b a).swap
  | [], [] => rfl
  | [], _ :: _ => rfl
  | _ :: _, [] => rfl
  | _ :: _, _ :: _ => comparePreList_swap _ _

theorem comparePre_eq : ∀ {a b : List String}, comparePre a b = .eq → a = b
  | [], [], _ => rfl
  | [], _ :: _, h => by cases h
  | _ :: _, [], h => by cases h
  | _ :: _, _ :: _, h => comparePreList_eq h

theorem comparePre_lt_trans :
    ∀ {a b c : List String}, comparePre a b = .lt → comparePre b c = .lt →
      comparePre a c = .lt
  | [], [], _, h1, _ => by cases h1
  | [], _ :: _, _, h1, _ => by cases h1
  | _ :: _, [], [], _, h2 => by cases h2
  | _ :: _, [], _ :: _, _, h2 => by cases h2
  | _ :: _, _ :: _, [], _, _ => rfl
  | _ :: _, _ :: _, _ :: _, h1, h2 => comparePreList_lt_trans h1 h2

/-- Two all-digit identifiers with the same zero-trimmed tail and the
same length are equal: the leading zero runs have equal length too. -/
theorem zeroRun_eq {a b : List Char}
    (hd : a.dropWhile (· == '0') = b.dropWhile (· == '0'))
    (hl : a.length = b.length) : a = b := by
  have hza : ∀ c ∈ a.takeWhile (· == '0'), c = '0' := by
    intro c hc
    have hp := List.mem_takeWhile_imp hc
    exact eq_of_beq hp
  have hzb : ∀ c ∈ b.takeWhile (· == '0'), c = '0' := by
    intro c hc
    have hp := List.mem_takeWhile_imp hc
    exact eq_of_beq hp
  have hta : a.takeWhile (· == '0') =
      List.replicate (a.takeWhile (· == '0')).length '0' :=
    List.eq_replicate_of_mem hza
  have htb : b.takeWhile (· == '0') =
      List.replicate (b.takeWhile (· == '0')).length '0' :=
    List.eq_replicate_of_mem hzb
  have hla := congrArg List.length (List.takeWhile_append_dropWhile (p := (· == '0')) (l := a))
  have hlb := congrArg List.length (List.takeWhile_append_dropWhile (p := (· == '0')) (l := b))
  rw [List.length_append] at hla hlb
  have hld := congrArg List.length hd
  have hlen : (a.takeWhile (· == '0')).length = (b.takeWhile (· == '0')).length := by omega
  have e1 : a = List.replicate (a.takeWhile (· == '0')).length '0' ++
      a.dropWhile (· == '0') := by
    conv_lhs => rw [← List.takeWhile_append_dropWhile (p := (· == '0')) (l := a)]
    rw [← hta]
  have e2 : b = List.replicate (b.takeWhile (· == '0')).length '0' ++
      b.dropWhile (· == '0') := by
    conv_lhs => rw [← List.takeWhile_append_dropWhile (p := (· == '0')) (l := b)]
    rw [← htb]
  rw [e1, e2, hlen, hd]

theorem compareBuildIdent_swap (a b : List Char) :
    compareBuildIdent a b = (compareBuildIdent b a).swap := by
  cases ha : a.all Char.isDigit <;> cases hb : b.all Char.isDigit <;>
    simp only [compareBuildIdent, ha, hb]
  · exact compareCharList_swap a b
  · rfl
  · rfl
  · rw [ordThen_swap, ordThen_swap, ← compareNat_swap, ← compareCharList_swap,
      ← compareNat_swap]

theorem compareBuildIdent_eq {a b : List Char} (h : compareBuildIdent a b = .eq) :
    a = b := by
  cases ha : a.all Char.isDigit <;> cases hb : b.all Char.isDigit <;>
    simp only [compareBuildIdent, ha, hb] at h
  · exact compareCharList_eq h
  · cases h
  · cases h
  · obtain ⟨h12, h3⟩ := ordThen_eq_eq.mp h
    obtain ⟨_, h2⟩ := ordThen_eq_eq.mp h12
    exact zeroRun_eq (compareCharList_eq h2) (compareNat_eq_iff.mp h3)

theorem compareBuildIdent_lt_trans {a b c : List Char} (h1 : compareBuildIdent a b = .lt)
    (h2 : compareBuildIdent b c = .lt) : compareBuildIdent a c = .lt := by
  have hfe1 : ∀ {x y : List Char},
      compareNat (x.dropWhile (· == '0')).length (y.dropWhile (· == '0')).length = .eq →
      ∀ z : List Char,
        compareNat (x.dropWhile (· == '0')).length (z.dropWhile (· == '0')).length =
          compareNat (y.dropWhile (· == '0')).length (z.dropWhile (· == '0')).length ∧
        compareNat (z.dropWhile (· == '0')).length (x.dropWhile (· == '0')).length =
          compareNat (z.dropWhile (· == '0')).length (y.dropWhile (· == '0')).length := by
    intro x y hu z
    rw [compareNat_eq_iff.mp hu]
    exact ⟨rfl, rfl⟩
  have hfe2 : ∀ {x y : List Char},
      compareCharList (x.dropWhile (· == '0')) (y.dropWhile (· == '0')) = .eq →
      ∀ z : List Char,
        compareCharList (x.dropWhile (· == '0')) (z.dropWhile (· == '0')) =
          compareCharList (y.dropWhile (· == '0')) (z.dropWhile (· == '0')) ∧
        compareCharList (z.dropWhile (· == '0')) (x.dropWhile (· == '0')) =
          compareCharList (z.dropWhile (· == '0')) (y.dropWhile (· == '0')) := by
    intro x y hu z
    rw [compareCharList_eq hu]
    exact ⟨rfl, rfl⟩
  have hft1 : ∀ {x y z : List Char},
      compareNat (x.dropWhile (· == '0')).length (y.dropWhile (· == '0')).length = .lt →
      compareNat (y.dropWhile (· == '0')).length (z.dropWhile (· == '0')).length = .lt →
      compareNat (x.dropWhile (· == '0')).length (z.dropWhile (· == '0')).length = .lt := by
    intro x y z hx hy
    exact compareNat_lt_trans hx hy
  have hft2 : ∀ {x y z : List Char},
      compareCharList (x.dropWhile (· == '0')) (y.dropWhile (· == '0')) = .lt →
      compareCharList (y.dropWhile (· == '0')) (z.dropWhile (· == '0')) = .lt →
      compareCharList (x.dropWhile (· == '0')) (z.dropWhile (· == '0')) = .lt := by
    intro x y z hx hy
    exact compareCharList_lt_trans hx hy
  have hgt : ∀ {x y z : List Char}, compareNat x.length y.length = .lt →
      compareNat y.length z.length = .lt → compareNat x.length z.length = .lt := by
    intro x y z hx hy
    exact compareNat_lt_trans hx hy
  cases ha : a.all Char.isDigit <;> cases hb : b.all Char.isDigit <;>
    cases hc : c.all Char.isDigit <;>
    simp only [compareBuildIdent, ha, hb, hc] at h1 h2 ⊢ <;>
    first
    | rfl
    | exact absurd h1 (by decide)
    | exact absurd h2 (by decide)
    | exact compareCharList_lt_trans h1 h2
    | exact ordThen_lt_trans
        (fun x y : List Char => (compareNat (x.dropWhile (· == '0')).length
            (y.dropWhile (· == '0')).length).then
          (compareCharList (x.dropWhile (· == '0')) (y.dropWhile (· == '0'))))
        (fun x y : List Char => compareNat x.length y.length)
        (fun hxy z => ordThen_congr
          (fun u v : List Char => compareNat (u.dropWhile (· == '0')).length
            (v.dropWhile (· == '0')).length)
          (fun u v : List Char =>
            compareCharList (u.dropWhile (· == '0')) (v.dropWhile (· == '0')))
          hfe1 hfe2 hxy z)
        (fun hxy hyz => ordThen_lt_trans
          (fun u v : List Char => compareNat (u.dropWhile (· == '0')).length
            (v.dropWhile (· == '0')).length)
          (fun u v : List Char =>
            compareCharList (u.dropWhile (· == '0')) (v.dropWhile (· == '0')))
          hfe1 hft1 hft2 hxy hyz)
        hgt h1 h2

theorem compareBuild_swap : ∀ (a b : List String),
    compareBuild a b = (compareBuild b a).swap
  | [], [] => rfl
  | [], _ :: _ => rfl
  | _ :: _, [] => rfl
  | x :: xs, y :: ys => by
    show (compareBuildIdent x.data y.data).then (compareBuild xs ys) =
      ((compareBuildIdent y.data x.data).then (compareBuild ys xs)).swap
    rw [ordThen_swap, compareBuild_swap xs ys, compareBuildIdent_swap x.data y.data]

theorem compareBuild_eq : ∀ {a b : List String}, compareBuild a b = .eq → a = b
  | [], [], _ => rfl
  | [], _ :: _, h => by cases h
  | _ :: _, [], h => by cases h
  | x :: xs, y :: ys, h => by
    obtain ⟨h1, h2⟩ := ordThen_eq_eq.mp h
    rw [String.ext (compareBuildIdent_eq h1), compareBuild_eq h2]

theorem compareBuild_lt_trans :
    ∀ {a b c : List String}, compareBuild a b = .lt → compareBuild b c = .lt →
      compareBuild a c = .lt
  | [], [], _, h1, _ => by cases h1
  | [], _ :: _, [], _, h2 => by cases h2
  | [], _ :: _, _ :: _, _, _ => rfl
  | _ :: _, [], _, h1, _ => by cases h1
  | _ :: _, _ :: _, [], _, h2 => by cases h2
  | x :: xs, y :: ys, z :: zs, h1, h2 => by
    rcases ordThen_eq_lt.mp h1 with ha | ⟨ha, ha2⟩ <;>
      rcases ordThen_eq_lt.mp h2 with hb | ⟨hb, hb2⟩
    · exact ordThen_eq_lt.mpr (Or.inl (compareBuildIdent_lt_trans ha hb))
    · have hyz := String.ext (compareBuildIdent_eq hb)
      rw [← hyz]
      exact ordThen_eq_lt.mpr (Or.inl ha)
    · have hxy := String.ext (compareBuildIdent_eq ha)
      rw [hxy]
      exact ordThen_eq_lt.mpr (Or.inl hb)
    · have hxy := String.ext (compareBuildIdent_eq ha)
      rw [hxy]
      exact ordThen_eq_lt.mpr (Or.inr ⟨hb, compareBuild_lt_trans ha2 hb2⟩)

theorem compareVersion_swap (a b : SemVersion) :
    compareVersion a b = (compareVersion b a).swap := by
  unfold compareVersion
  rw [ordThen_swap, ordThen_swap, ordThen_swap, ordThen_swap,
    ← compareNat_swap, ← compareNat_swap, ← compareNat_swap,
    ← comparePre_swap, ← compareBuild_swap]

theorem compareVersion_eq {a b : SemVersion} (h : compareVersion a b = .eq) : a = b := by
  unfold compareVersion at h
  obtain ⟨h4, hbld⟩ := ordThen_eq_eq.mp h
  obtain ⟨h3, hpre⟩ := ordThen_eq_eq.mp h4
  obtain ⟨h2, hpat⟩ := ordThen_eq_eq.mp h3
  obtain ⟨hmaj, hmin⟩ := ordThen_eq_eq.mp h2
  obtain ⟨am, ai, ap, ar, ab⟩ := a
  obtain ⟨bm, bi, bp, br, bb⟩ := b
  simp only [SemVersion.mk.injEq]
  exact ⟨compareNat_eq_iff.mp hmaj, compareNat_eq_iff.mp hmin,
    compareNat_eq_iff.mp hpat, comparePre_eq hpre, compareBuild_eq hbld⟩

theorem compareVersion_lt_trans {a b c : SemVersion} (h1 : compareVersion a b = .lt)
    (h2 : compareVersion b c = .lt) : compareVersion a c = .lt := by
  have hfe1 : ∀ {x y : SemVersion}, compareNat x.major y.major = .eq →
      ∀ z : SemVersion, compareNat x.major z.major = compareNat y.major z.major ∧
        compareNat z.major x.major = compareNat z.major y.major := by
    intro x y hu z
    rw [compareNat_eq_iff.mp hu]
    exact ⟨rfl, rfl⟩
  have hfe2 : ∀ {x y : SemVersion}, compareNat x.minor y.minor = .eq →
      ∀ z : SemVersion, compareNat x.minor z.minor = compareNat y.minor z.minor ∧
        compareNat z.minor x.minor = compareNat z.minor y.minor := by
    intro x y hu z
    rw [compareNat_eq_iff.mp hu]
    exact ⟨rfl, rfl⟩
  have hfe3 : ∀ {x y : SemVersion}, compareNat x.patch y.patch = .eq →
      ∀ z : SemVersion, compareNat x.patch z.patch = compareNat y.patch z.patch ∧
        compareNat z.patch x.patch = compareNat z.patch y.patch := by
    intro x y hu z
    rw [compareNat_eq_iff.mp hu]
    exact ⟨rfl, rfl⟩
  have hfe4 : ∀ {x y : SemVersion}, comparePre x.pre y.pre = .eq →
      ∀ z : SemVersion, comparePre x.pre z.pre = comparePre y.pre z.pre ∧
        comparePre z.pre x.pre = comparePre z.pre y.pre := by
    intro x y hu z
    rw [comparePre_eq hu]
    exact ⟨rfl, rfl⟩
  have hft1 : ∀ {x y z : SemVersion}, compareNat x.major y.major = .lt →
      compareNat y.major z.major = .lt → compareNat x.major z.major = .lt := by
    intro x y z hx hy
    exact compareNat_lt_trans hx hy
  have hft2 : ∀ {x y z : SemVersion}, compareNat x.minor y.minor = .lt →
      compareNat y.minor z.minor = .lt → compareNat x.minor z.minor = .lt := by
    intro x y z hx hy
    exact compareNat_lt_trans hx hy
  have hft3 : ∀ {x y z : SemVersion}, compareNat x.patch y.patch = .lt →
      compareNat y.patch z.patch = .lt → compareNat x.patch z.patch = .lt := by
    intro x y z hx hy
    exact compareNat_lt_trans hx hy
  have hft4 : ∀ {x y z : SemVersion}, comparePre x.pre y.pre = .lt →
      comparePre y.pre z.pre = .lt → comparePre x.pre z.pre = .lt := by
    intro x y z hx hy
    exact comparePre_lt_trans hx hy
  have hft5 : ∀ {x y z : SemVersion}, compareBuild x.build y.build = .lt →
      compareBuild y.build z.build = .lt → compareBuild x.build z.build = .lt := by
    intro x y z hx hy
    exact compareBuild_lt_trans hx hy
  exact ordThen_lt_trans
    (fun x y : SemVersion =>
      (((compareNat x.major y.major).then (compareNat x.minor y.minor)).then
        (compareNat x.patch y.patch)).then (comparePre x.pre y.pre))
    (fun x y : SemVersion => compareBuild x.build y.build)
    (fun hxy z => ordThen_congr
      (fun x y : SemVersion =>
        ((compareNat x.major y.major).then (compareNat x.minor y.minor)).then
          (compareNat x.patch y.patch))
      (fun x y : SemVersion => comparePre x.pre y.pre)
      (fun hu w => ordThen_congr
        (fun x y : SemVersion =>
          (compareNat x.major y.major).then (compareNat x.minor y.minor))
        (fun x y : SemVersion => compareNat x.patch y.patch)
        (fun hv u2 => ordThen_congr
          (fun x y : SemVersion => compareNat x.major y.major)
          (fun x y : SemVersion => compareNat x.minor y.minor)
          hfe1 hfe2 hv u2)
        hfe3 hu w)
      hfe4 hxy z)
    (fun hxy hyz => ordThen_lt_trans
      (fun x y : SemVersion =>
        ((compareNat x.major y.major).then (compareNat x.minor y.minor)).then
          (compareNat x.patch y.patch))
      (fun x y : SemVersion => comparePre x.pre y.pre)
      (fun hu w => ordThen_congr
        (fun x y : SemVersion =>
          (compareNat x.major y.major).then (compareNat x.minor y.minor))
        (fun x y : SemVersion => compareNat x.patch y.patch)
        (fun hv u2 => ordThen_congr
          (fun x y : SemVersion => compareNat x.major y.major)
          (fun x y : SemVersion => compareNat x.minor y.minor)
          hfe1 hfe2 hv u2)
        hfe3 hu w)
      (fun hu hv => ordThen_lt_trans
        (fun x y : SemVersion =>
          (compareNat x.major y.major).then (compareNat x.minor y.minor))
        (fun x y : SemVersion => compareNat x.patch y.patch)
        (fun hv2 u2 => ordThen_congr
          (fun x y : SemVersion => compareNat x.major y.major)
          (fun x y : SemVersion => compareNat x.minor y.minor)
          hfe1 hfe2 hv2 u2)
        (fun hx hy => ordThen_lt_trans
          (fun x y : SemVersion => compareNat x.major y.major)
          (fun x y : SemVersion => compareNat x.minor y.minor)
          hfe1 hft1 hft2 hx hy)
        hft3 hu hv)
      hft4 hxy hyz)
    hft5 h1 h2

/-! ## The descending insertion sort is sorted -/

theorem insertDesc_pairwise {α : Type} (ge : α → α → Bool)
    (total : ∀ a b, ge a b = true ∨ ge b a = true)
    (trans : ∀ a b c, ge a b = true → ge b c = true → ge a c = true)
    (x : α) (l : List α) (h : l.Pairwise (fun a b => ge a b = true)) :
    (insertDesc ge x l).Pairwise (fun a b => ge a b = true) := by
  induction l with
  | nil => simp [insertDesc]
  | cons y ys ih =>
    obtain ⟨h1, h2⟩ := List.pairwise_cons.mp h
    by_cases hxy : ge x y = true
    · simp only [insertDesc, hxy, if_true]
      refine List.pairwise_cons.mpr ⟨?_, h⟩
      intro z hz
      rcases List.mem_cons.mp hz with rfl | hz2
      · exact hxy
      · exact trans x y z hxy (h1 z hz2)
    · simp only [insertDesc, hxy, if_false, Bool.false_eq_true]
      refine List.pairwise_cons.mpr ⟨?_, ih h2⟩
      intro z hz
      have hz2 := (insertDesc_perm ge x ys).mem_iff.mp hz
      rcases List.mem_cons.mp hz2 with rfl | hz3
      · rcases total z y with ht | ht
        · exact absurd ht hxy
        · exact ht
      · exact h1 z hz3

theorem sortDesc_pairwise {α : Type} (ge : α → α → Bool)
    (total : ∀ a b, ge a b = true ∨ ge b a = true)
    (trans : ∀ a b c, ge a b = true → ge b c = true → ge a c = true)
    (l : List α) : (sortDesc ge l).Pairwise (fun a b => ge a b = true) := by
  induction l with
  | nil => simp [sortDesc]
  | cons x xs ih => exact insertDesc_pairwise ge total trans x (sortDesc ge xs) ih

theorem geStr_true_iff (a b : String) :
    geStr a b = true ↔ compareCharList b.data a.data ≠ .gt := by
  unfold geStr
  cases compareCharList b.data a.data <;> simp

theorem geStr_total (a b : String) : geStr a b = true ∨ geStr b a = true := by
  rw [geStr_true_iff, geStr_true_iff]
  cases h : compareCharList b.data a.data with
  | lt => left; decide
  | eq => left; decide
  | gt =>
    right
    rw [compareCharList_swap a.data b.data, h]
    decide

theorem geStr_trans (a b c : String) (h1 : geStr a b = true) (h2 : geStr b c = true) :
    geStr a c = true := by
  rw [geStr_true_iff] at h1 h2 ⊢
  cases hcb : compareCharList c.data b.data with
  | gt => exact absurd hcb h2
  | eq => rw [compareCharList_eq hcb]; exact h1
  | lt =>
    cases hba : compareCharList b.data a.data with
    | gt => exact absurd hba h1
    | eq =>
      rw [← compareCharList_eq hba]
      rw [hcb]
      decide
    | lt =>
      rw [compareCharList_lt_trans hcb hba]
      decide

theorem geVer_true_iff (p q : SemVersion × String) :
    geVer p q = true ↔ compareVersion q.1 p.1 ≠ .gt := by
  unfold geVer
  cases compareVersion q.1 p.1 <;> simp

theorem geVer_total (p q : SemVersion × String) : geVer p q = true ∨ geVer q p = true := by
  rw [geVer_true_iff, geVer_true_iff]
  cases h : compareVersion q.1 p.1 with
  | lt => left; decide
  | eq => left; decide
  | gt =>
    right
    rw [compareVersion_swap p.1 q.1, h]
    decide

theorem geVer_trans (p q r : SemVersion × String) (h1 : geVer p q = true)
    (h2 : geVer q r = true) : geVer p r = true := by
  rw [geVer_true_iff] at h1 h2 ⊢
  cases hrq : compareVersion r.1 q.1 with
  | gt => exact absurd hrq h2
  | eq => rw [compareVersion_eq hrq]; exact h1
  | lt =>
    cases hqp : compareVersion q.1 p.1 with
    | gt => exact absurd hqp h1
    | eq =>
      rw [← compareVersion_eq hqp]
      rw [hrq]
      decide
    | lt =>
      rw [compareVersion_lt_trans hrq hqp]
      decide

/-- Every pair produced by the semver filter carries the parse of its
own tag. -/
theorem semverPairs_wf (tags : List String) :
    ∀ p ∈ semverPairs tags, parseVersion (trimV p.2) = some p.1 := by
  intro p hp
  obtain ⟨tag, _, hmap⟩ := List.mem_filterMap.mp hp
  cases hv : parseVersion (trimV tag) with
  | none => rw [hv] at hmap; cases hmap
  | some v =>
    rw [hv] at hmap
    obtain rfl := Option.some.inj hmap
    exact hv

/-- The sorted working list of `classify_tags` really is descending. -/
theorem rankedTags_sorted (sv : Bool) (tags : List String) :
    (rankedTags sv tags).Pairwise (tagDescGe sv) := by
  cases sv with
  | false =>
    have hs := sortDesc_pairwise geStr geStr_total geStr_trans tags
    refine (List.Pairwise.imp ?_ hs)
    intro a b hab
    simpa [tagDescGe] using (geStr_true_iff a b).mp hab
  | true =>
    have hs := sortDesc_pairwise geVer geVer_total geVer_trans (semverPairs tags)
    have hwf : ∀ p ∈ sortDesc geVer (semverPairs tags),
        parseVersion (trimV p.2) = some p.1 := by
      intro p hp
      exact semverPairs_wf tags p ((sortDesc_perm geVer (semverPairs tags)).mem_iff.mp hp)
    have hs2 : (sortDesc geVer (semverPairs tags)).Pairwise
        (fun p q => tagDescGe true p.2 q.2) := by
      refine List.Pairwise.imp_of_mem ?_ hs
      intro p q hp hq hge
      simp only [tagDescGe, if_true]
      intro va vb hva hvb
      rw [hwf p hp] at hva
      rw [hwf q hq] at hvb
      obtain rfl := Option.some.inj hva
      obtain rfl := Option.some.inj hvb
      exact (geVer_true_iff p q).mp hge
    simpa [rankedTags] using List.pairwise_map.mpr hs2

/-! ## Claims C1, C2, C5, C9: the Retention Ranker -/

/-- Claim C1, counterexample: the claim fails twice over.  At the tag
list `["latest"]` with `max_keep = 1` in semver mode the slice bound
`min 1 1 = 1` exceeds the filtered length `0` and `classify_tags`
panics (embedded as `none`) instead of returning a pair.  And at the
duplicated tag list `["a", "a"]` with `max_keep = 1` in lexicographic
mode it returns `keep = ["a"]` and `remove = ["a"]`, which are not
disjoint.  These force the two amendments: the keep bound must not
exceed the mode-filtered length, and the tags must be duplicate-free. -/
theorem c1_counterexample :
    classify_tags ["latest"] 1 true = none ∧
    classify_tags ["a", "a"] 1 false = some (["a"], ["a"]) ∧
    ¬ List.Disjoint (["a"] : List String) ["a"] := by
  refine ⟨by decide, by decide, ?_⟩
  intro h
  exact h (List.mem_singleton_self "a") (List.mem_singleton_self "a")

/-- Claim C1 (amended): for duplicate-free tag lists and positive
`max_keep`, whenever the keep bound `min k |tags|` does not exceed the
mode-filtered length (always the case in lexicographic mode),
`classify_tags` returns the take/drop split of the descending-sorted
mode-filtered input: keep and remove are disjoint, their concatenation
is a permutation of the mode-filtered input in descending order, and
the keep length equals `min k |filtered input|`. -/
theorem c1_classify_partition (tags : List String) (k : Nat) (sv : Bool)
    (_hk : 0 < k) (hnd : tags.Nodup)
    (hsafe : min k tags.length ≤ (modeFilter sv tags).length) :
    classify_tags tags k sv =
      some ((rankedTags sv tags).take (min k tags.length),
            (rankedTags sv tags).drop (min k tags.length)) ∧
    ((rankedTags sv tags).take (min k tags.length)).Disjoint
      ((rankedTags sv tags).drop (min k tags.length)) ∧
    ((rankedTags sv tags).take (min k tags.length) ++
      (rankedTags sv tags).drop (min k tags.length)).Perm (modeFilter sv tags) ∧
    ((rankedTags sv tags).take (min k tags.length) ++
      (rankedTags sv tags).drop (min k tags.length)).Pairwise (tagDescGe sv) ∧
    ((rankedTags sv tags).take (min k tags.length)).length =
      min k (modeFilter sv tags).length := by
  have hlen := length_rankedTags sv tags
  have hn : min k tags.length ≤ (rankedTags sv tags).length := by rw [hlen]; exact hsafe
  have hfl := length_modeFilter_le sv tags
  refine ⟨by simp [classify_tags, hn], ?_, ?_, ?_, ?_⟩
  · have hnd2 : (rankedTags sv tags).Nodup :=
      ((rankedTags_perm sv tags).nodup_iff).mpr (nodup_modeFilter sv hnd)
    rw [← List.take_append_drop (min k tags.length) (rankedTags sv tags)] at hnd2
    exact (List.nodup_append.mp hnd2).2.2
  · rw [List.take_append_drop]; exact rankedTags_perm sv tags
  · rw [List.take_append_drop]; exact rankedTags_sorted sv tags
  · rw [List.length_take, hlen]; omega

/-- Claim C1, witness: the amended theorem applied to the running
example in semver mode. -/
theorem c1_witness :
    classify_tags ["v1.2.0", "v1.1.0", "v2.0.0", "latest"] 1 true =
      some ((rankedTags true ["v1.2.0", "v1.1.0", "v2.0.0", "latest"]).take
              (min 1 (["v1.2.0", "v1.1.0", "v2.0.0", "latest"] : List String).length),
            (rankedTags true ["v1.2.0", "v1.1.0", "v2.0.0", "latest"]).drop
              (min 1 (["v1.2.0", "v1.1.0", "v2.0.0", "latest"] : List String).length)) ∧
    ((rankedTags true ["v1.2.0", "v1.1.0", "v2.0.0", "latest"]).take
        (min 1 (["v1.2.0", "v1.1.0", "v2.0.0", "latest"] : List String).length)).length =
      min 1 (modeFilter true ["v1.2.0", "v1.1.0", "v2.0.0", "latest"]).length := by
  have h := c1_classify_partition ["v1.2.0", "v1.1.0", "v2.0.0", "latest"] 1 true
    (by decide) (by decide) (by decide)
  exact ⟨h.1, h.2.2.2.2⟩

/-- Claim C2, counterexample: the source strips every leading `v`
(`trim_start_matches`), not a single one; the tag `vv1.0.0` fails
semantic-version parsing after removing a single leading `v`, so the
claim says it is absent from the output, yet `classify_tags` keeps it. -/
theorem c2_counterexample :
    classify_tags ["vv1.0.0"] 1 true = some (["vv1.0.0"], []) ∧
    "vv1.0.0" ∈ (["vv1.0.0"] ++ [] : List String) ∧
    parseVersion (stripOneLeadingV "vv1.0.0") = none := by decide

/-- Claim C2 (amended): lexicographic mode never drops a tag; in semver
mode, whenever `classify_tags` returns, the tags absent from the output
are exactly those whose text, after removing **all** leading `v`
characters, fails semantic-version parsing. -/
theorem c2_mode_membership (tags : List String) (k : Nat) :
    (classify_tags tags k false).isSome ∧
    (∀ kp rm, classify_tags tags k false = some (kp, rm) → ∀ t ∈ tags, t ∈ kp ++ rm) ∧
    (∀ kp rm, classify_tags tags k true = some (kp, rm) →
      ∀ t ∈ tags, (t ∉ kp ++ rm ↔ parseVersion (trimV t) = none)) := by
  refine ⟨?_, ?_, ?_⟩
  · have hn : min k tags.length ≤ (rankedTags false tags).length := by
      rw [length_rankedTags]
      simp [modeFilter]
    simp [classify_tags, hn]
  · intro kp rm h t ht
    rw [classify_tags_eq_ranked tags k false kp rm h, (rankedTags_perm false tags).mem_iff]
    simpa [modeFilter] using ht
  · intro kp rm h t ht
    rw [classify_tags_eq_ranked tags k true kp rm h, (rankedTags_perm true tags).mem_iff]
    simp only [modeFilter, if_true, semverFilter, List.mem_filter, ht, true_and]
    rw [Option.isSome_iff_ne_none]
    tauto

/-- Claim C2, witness: both modes exercised at concrete inputs. -/
theorem c2_witness :
    ("1.0.0" ∈ (["latest"] ++ ["1.0.0"] : List String)) ∧
    (("latest" ∉ (["1.0.0"] ++ ([] : List String))) ↔
      parseVersion (trimV "latest") = none) := by
  have h := c2_mode_membership ["1.0.0", "latest"] 1
  exact ⟨h.2.1 ["latest"] ["1.0.0"] (by decide) "1.0.0" (by decide),
         h.2.2 ["1.0.0"] [] (by decide) "latest" (by decide)⟩

/-- Claim C5: the concrete semver example from the spec: with
`max_keep = 1`, keep is `["v2.0.0"]`, remove is `["v1.2.0", "v1.1.0"]`,
and `latest` appears in neither. -/
theorem c5_concrete_example :
    classify_tags ["v1.2.0", "v1.1.0", "v2.0.0", "latest"] 1 true =
      some (["v2.0.0"], ["v1.2.0", "v1.1.0"]) ∧
    "latest" ∉ (["v2.0.0"] ++ ["v1.2.0", "v1.1.0"] : List String) := by decide

/-- Claim C9: in semver mode the keep-slice bound is computed from the
unfiltered input, so whenever the number of parseable tags falls below
`min n |tags|` the slices index out of bounds and `classify_tags`
panics (embedded as `none`) instead of returning a split. -/
theorem c9_semver_bound_panics (tags : List String) (n : Nat)
    (h : (semverFilter tags).length < min n tags.length) :
    classify_tags tags n true = none := by
  have hlen : (rankedTags true tags).length = (semverFilter tags).length := by
    simpa [modeFilter] using length_rankedTags true tags
  have hcond : ¬ min n tags.length ≤ (rankedTags true tags).length := by rw [hlen]; omega
  simp [classify_tags, hcond]

/-- Claim C9, witness: the panic input from the claim, `["latest",
"foo"]` with `max_keep = 2`. -/
theorem c9_witness : classify_tags ["latest", "foo"] 2 true = none :=
  c9_semver_bound_panics ["latest", "foo"] 2 (by decide)

/-! ## Lemmas about the bucket map -/

theorem bucketOf_addToBucket_same (m : List (String × List String)) (key tag : String) :
    bucketOf (addToBucket m key tag) key = some ((bucketOf m key).getD [] ++ [tag]) := by
  induction m with
  | nil => simp [addToBucket, bucketOf]
  | cons e rest ih =>
    by_cases h : e.1 = key
    · simp [addToBucket, bucketOf, List.find?, h]
    · simp only [addToBucket]
      rw [if_neg (by exact h)]
      simpa [bucketOf, List.find?, h] using ih

theorem bucketOf_addToBucket_other (m : List (String × List String)) (key tag k : String)
    (h : k ≠ key) : bucketOf (addToBucket m key tag) k = bucketOf m k := by
  induction m with
  | nil => simp [addToBucket, bucketOf, List.find?, Ne.symm h]
  | cons e rest ih =>
    by_cases he : e.1 = key
    · simp [addToBucket, bucketOf, List.find?, he, Ne.symm h]
    · simp only [addToBucket]
      rw [if_neg (by exact he)]
      by_cases hk : e.1 = k
      · simp [bucketOf, List.find?, hk]
      · simpa [bucketOf, List.find?, hk] using ih

theorem bucketOf_rulesFold_notMem (tag : String) (rules : List Rule) (key : String)
    (h : key ∉ rules.map Prod.fst) (m : List (String × List String)) :
    bucketOf (rules.foldl (tagStep tag) m) key = bucketOf m key := by
  induction rules generalizing m with
  | nil => rfl
  | cons rt rest ih =>
    have h1 : key ≠ rt.1 := by simp at h; exact fun he => h.1 (he ▸ rfl)
    have h2 : key ∉ rest.map Prod.fst := by simp at h ⊢; exact h.2
    simp only [List.foldl_cons]
    rw [ih h2]
    by_cases hm : rt.2 tag
    · simp only [tagStep, hm, if_true]
      exact bucketOf_addToBucket_other m rt.1 tag key h1
    · simp [tagStep, hm]

theorem bucketOf_rulesFold (tag : String) (rules : List Rule) (key : String)
    (matcher : String → Bool) (hmem : (key, matcher) ∈ rules)
    (hnd : (rules.map Prod.fst).Nodup) (m : List (String × List String)) :
    bucketOf (rules.foldl (tagStep tag) m) key =
      if matcher tag then some ((bucketOf m key).getD [] ++ [tag]) else bucketOf m key := by
  induction rules generalizing m with
  | nil => cases hmem
  | cons rt rest ih =>
    have hnd0 : (rt.1 :: rest.map Prod.fst).Nodup := by simpa using hnd
    have hnd1 : rt.1 ∉ rest.map Prod.fst := (List.nodup_cons.mp hnd0).1
    have hnd2 : (rest.map Prod.fst).Nodup := (List.nodup_cons.mp hnd0).2
    rcases List.mem_cons.mp hmem with heq | hrest
    · have hkey : rt.1 = key := by rw [← heq]
      have hmat : rt.2 = matcher := by rw [← heq]
      simp only [List.foldl_cons]
      rw [bucketOf_rulesFold_notMem tag rest key (hkey ▸ hnd1) _]
      by_cases hm : matcher tag
      · simp [tagStep, hmat, hm, hkey, bucketOf_addToBucket_same]
      · simp [tagStep, hmat, hm]
    · have hkey : rt.1 ≠ key := by
        intro he
        exact hnd1 (he ▸ (List.mem_map.mpr ⟨(key, matcher), hrest, rfl⟩))
      simp only [List.foldl_cons]
      rw [ih hrest hnd2]
      by_cases hm : rt.2 tag
      · simp only [tagStep, hm, if_true]
        rw [bucketOf_addToBucket_other m rt.1 tag key (Ne.symm hkey)]
      · simp [tagStep, hm]

theorem bucketOf_tagsFold (tags : List String) (rules : List Rule) (key : String)
    (matcher : String → Bool) (hmem : (key, matcher) ∈ rules)
    (hnd : (rules.map Prod.fst).Nodup) (m : List (String × List String)) :
    bucketOf (tags.foldl (fun m2 tag => rules.foldl (tagStep tag) m2) m) key =
      combineB (bucketOf m key) (tags.filter (fun t => matcher t)) := by
  induction tags generalizing m with
  | nil => cases hb : bucketOf m key <;> simp [combineB, hb]
  | cons t ts ih =>
    simp only [List.foldl_cons]
    rw [ih (rules.foldl (tagStep t) m), bucketOf_rulesFold t rules key matcher hmem hnd m]
    by_cases hm : matcher t
    · simp only [hm, if_true, List.filter_cons, hm]
      cases hb : bucketOf m key <;> simp [combineB, hb]
    · simp [hm, List.filter_cons]

theorem bucketOf_tagsFold_notMem (tags : List String) (rules : List Rule) (key : String)
    (h : key ∉ rules.map Prod.fst) (m : List (String × List String)) :
    bucketOf (tags.foldl (fun m2 tag => rules.foldl (tagStep tag) m2) m) key =
      bucketOf m key := by
  induction tags generalizing m with
  | nil => rfl
  | cons t ts ih =>
    simp only [List.foldl_cons]
    rw [ih (rules.foldl (tagStep t) m), bucketOf_rulesFold_notMem t rules key h m]

/-! ## Claim C4: the Tag Classifier -/

/-- Claim C4: with no rules, `get_matching_tags` returns the single
wildcard bucket `.*` holding all tags in source order; with rules (of
pairwise distinct pattern strings, which is what rule identity means),
the bucket of a rule holds exactly the tags its matcher accepts, in
source-list order (and exists only if some tag matched); names of no
rule have no bucket; a tag matching no rule is in no bucket. -/
theorem c4_tag_classifier (tags : List String) (rules : List Rule)
    (hnd : (rules.map Prod.fst).Nodup) :
    get_matching_tags tags [] = [(".*", tags)] ∧
    (rules ≠ [] → ∀ name matcher, (name, matcher) ∈ rules →
      bucketOf (get_matching_tags tags rules) name =
        if (tags.filter (fun t => matcher t)).isEmpty then none
        else some (tags.filter (fun t => matcher t))) ∧
    (rules ≠ [] → ∀ name, name ∉ rules.map Prod.fst →
      bucketOf (get_matching_tags tags rules) name = none) ∧
    (rules ≠ [] → ∀ t ∈ tags, (∀ r ∈ rules, r.2 t = false) →
      ∀ name l, bucketOf (get_matching_tags tags rules) name = some l → t ∉ l) := by
  have hmain : rules ≠ [] → ∀ name matcher, (name, matcher) ∈ rules →
      bucketOf (get_matching_tags tags rules) name =
        if (tags.filter (fun t => matcher t)).isEmpty then none
        else some (tags.filter (fun t => matcher t)) := by
    intro hne name matcher hmem
    have hre : ¬ rules.isEmpty := by simpa using hne
    simp only [get_matching_tags, hre, if_false, Bool.false_eq_true]
    rw [bucketOf_tagsFold tags rules name matcher hmem hnd []]
    have hb : bucketOf ([] : List (String × List String)) name = none := rfl
    rw [hb]
    cases tags.filter (fun t => matcher t) <;> simp [combineB]
  have hnone : rules ≠ [] → ∀ name, name ∉ rules.map Prod.fst →
      bucketOf (get_matching_tags tags rules) name = none := by
    intro hne name hnm
    have hre : ¬ rules.isEmpty := by simpa using hne
    simp only [get_matching_tags, hre, if_false, Bool.false_eq_true]
    rw [bucketOf_tagsFold_notMem tags rules name hnm []]
    rfl
  refine ⟨by simp [get_matching_tags], hmain, hnone, ?_⟩
  intro hne t _ht hnomatch name l hb hmem
  by_cases hin : name ∈ rules.map Prod.fst
  · obtain ⟨r, hr, hr1⟩ := List.mem_map.mp hin
    have := hmain hne name r.2 (by rw [← hr1]; exact hr)
    rw [hb] at this
    by_cases hemp : (tags.filter (fun x => r.2 x)).isEmpty
    · simp [hemp] at this
    · simp only [hemp, if_false, Bool.false_eq_true] at this
      have hl : l = tags.filter (fun x => r.2 x) := by
        cases this; rfl
      rw [hl] at hmem
      have := (List.mem_filter.mp hmem).2
      rw [hnomatch r hr] at this
      cases this
  · rw [hnone hne name hin] at hb
    cases hb

/-- Claim C4, witness: two rules, one overlapping tag, one unmatched
tag. -/
theorem c4_witness :
    get_matching_tags ["dev-1", "x"] [] = [(".*", ["dev-1", "x"])] ∧
    bucketOf (get_matching_tags ["dev-1", "x"]
        [("d", fun t => t == "dev-1"), ("y", fun t => t == "y")]) "d" = some ["dev-1"] ∧
    bucketOf (get_matching_tags ["dev-1", "x"]
        [("d", fun t => t == "dev-1"), ("y", fun t => t == "y")]) "y" = none ∧
    bucketOf (get_matching_tags ["dev-1", "x"]
        [("d", fun t => t == "dev-1"), ("y", fun t => t == "y")]) "z" = none := by
  have h := c4_tag_classifier ["dev-1", "x"]
    [("d", fun t => t == "dev-1"), ("y", fun t => t == "y")] (by decide)
  refine ⟨h.1, ?_, ?_, ?_⟩
  · have := h.2.1 (by simp) "d" (fun t => t == "dev-1") (by simp)
    simpa using this
  · have := h.2.1 (by simp) "y" (fun t => t == "y") (by simp)
    simpa using this
  · exact h.2.2.1 (by simp) "z" (by simp)

/-! ## Lemmas about the per-tag removal loop -/

theorem runTags_warn (env : Env) (repo : String) (del : Bool) (ts : List String)
    (hok : (runTags env repo del ts).2.2 = none) :
    ∀ t ∈ ts, env.digest repo t = Except.ok none →
      warnLine repo t ∈ (runTags env repo del ts).2.1 := by
  induction ts with
  | nil => intro t ht; cases ht
  | cons tag rest ih =>
    intro t ht hdt
    cases hd : env.digest repo tag with
    | error e => rw [runTags, hd] at hok; cases hok
    | ok od =>
      cases od with
      | none =>
        rw [runTags, hd] at hok ⊢
        rcases List.mem_cons.mp ht with rfl | hrest
        · exact List.mem_cons_self _ _
        · exact List.mem_cons_of_mem _ (ih hok t hrest hdt)
      | some d =>
        have hne : t ≠ tag := by
          intro he; rw [he, hd] at hdt; cases hdt
        have hrest : t ∈ rest := by
          rcases List.mem_cons.mp ht with he | hr
          · exact absurd he hne
          · exact hr
        cases del with
        | false =>
          rw [runTags, hd] at hok ⊢
          exact List.mem_cons_of_mem _ (ih hok t hrest hdt)
        | true =>
          cases hdel : env.deleteTag repo d with
          | error e => rw [runTags, hd] at hok; simp [hdel] at hok
          | ok u =>
            rw [runTags, hd] at hok ⊢
            simp only [hdel] at hok ⊢
            exact List.mem_cons_of_mem _ (List.mem_cons_of_mem _ (ih hok t hrest hdt))

theorem runTags_no_deletes_dry (env : Env) (repo : String) (ts : List String) :
    (runTags env repo false ts).1.filter isDeleteCall = [] := by
  induction ts with
  | nil => rfl
  | cons tag rest ih =>
    cases hd : env.digest repo tag with
    | error e => rw [runTags, hd]; rfl
    | ok od =>
      cases od with
      | none => rw [runTags, hd]; simpa [isDeleteCall] using ih
      | some d => rw [runTags, hd]; simpa [isDeleteCall] using ih

theorem runTags_deletes_are_resolved (env : Env) (repo : String) (ts : List String) :
    (runTags env repo true ts).1.filter isDeleteCall =
      (runTags env repo true ts).1.filterMap (resolveOf env) := by
  induction ts with
  | nil => rfl
  | cons tag rest ih =>
    cases hd : env.digest repo tag with
    | error e => rw [runTags, hd]; simp [isDeleteCall, resolveOf, hd]
    | ok od =>
      cases od with
      | none => rw [runTags, hd]; simpa [isDeleteCall, resolveOf, hd] using ih
      | some d =>
        cases hdel : env.deleteTag repo d with
        | error e => rw [runTags, hd]; simp [hdel, isDeleteCall, resolveOf, hd]
        | ok u => rw [runTags, hd]; simpa [hdel, isDeleteCall, resolveOf, hd] using ih

theorem runTags_success_resolved (env : Env) (repo : String) (ts : List String)
    (hok : (runTags env repo true ts).2.2 = none) :
    (runTags env repo true ts).1.filterMap (resolveOf env) =
      ts.filterMap (tagResolve env repo) := by
  induction ts with
  | nil => rfl
  | cons tag rest ih =>
    cases hd : env.digest repo tag with
    | error e => rw [runTags, hd] at hok; cases hok
    | ok od =>
      cases od with
      | none =>
        rw [runTags, hd] at hok ⊢
        simpa [resolveOf, tagResolve, hd] using ih hok
      | some d =>
        cases hdel : env.deleteTag repo d with
        | error e => rw [runTags, hd] at hok; simp [hdel] at hok
        | ok u =>
          rw [runTags, hd] at hok ⊢
          simp only [hdel] at hok ⊢
          simpa [resolveOf, tagResolve, hd] using ih hok

theorem runTags_delete_origin (env : Env) (repo : String) (del : Bool) (ts : List String) :
    ∀ cl ∈ (runTags env repo del ts).1, isDeleteCall cl = true →
      ∃ t d, cl = NetCall.deleteManifest repo d ∧ env.digest repo t = Except.ok (some d) := by
  induction ts with
  | nil => intro cl hcl; cases hcl
  | cons tag rest ih =>
    intro cl hcl hdel
    cases hd : env.digest repo tag with
    | error e =>
      simp only [runTags, hd, List.mem_cons, List.not_mem_nil, or_false] at hcl
      rw [hcl] at hdel
      simp [isDeleteCall] at hdel
    | ok od =>
      cases od with
      | none =>
        simp only [runTags, hd, List.mem_cons] at hcl
        rcases hcl with rfl | h
        · simp [isDeleteCall] at hdel
        · exact ih cl h hdel
      | some d =>
        cases del with
        | false =>
          simp only [runTags, hd, Bool.false_eq_true, if_false, List.mem_cons] at hcl
          rcases hcl with rfl | h
          · simp [isDeleteCall] at hdel
          · exact ih cl h hdel
        | true =>
          cases hdc : env.deleteTag repo d with
          | error e =>
            simp only [runTags, hd, hdc, if_true, List.mem_cons, List.not_mem_nil,
              or_false] at hcl
            rcases hcl with rfl | rfl
            · simp [isDeleteCall] at hdel
            · exact ⟨tag, d, rfl, hd⟩
          | ok u =>
            simp only [runTags, hd, hdc, if_true, List.mem_cons] at hcl
            rcases hcl with rfl | rfl | h
            · simp [isDeleteCall] at hdel
            · exact ⟨tag, d, rfl, hd⟩
            · exact ih cl h hdel

/-! ## Lemmas about the per-bucket loop -/

theorem runBuckets_count (env : Env) (repo : String) (k : Nat) (sv del : Bool)
    (bs : List (String × List String))
    (hok : (runBuckets env repo k sv del bs).2.2.2 = none) :
    (runBuckets env repo k sv del bs).2.2.1 =
      (bs.map (fun b => (removesOf (classify_tags b.2 k sv)).length)).sum := by
  induction bs with
  | nil => simp [runBuckets]
  | cons b rest ih =>
    obtain ⟨pat, btags⟩ := b
    cases hc : classify_tags btags k sv with
    | none => simp only [runBuckets, hc] at hok; cases hok
    | some pr =>
      obtain ⟨kp, rm⟩ := pr
      by_cases hr : rm.isEmpty
      · have hrm : rm = [] := List.isEmpty_iff.mp hr
        simp only [runBuckets, hc, hr, if_true] at hok ⊢
        rw [ih hok]
        simp [removesOf, hc, hrm]
      · rcases hR : runTags env repo del rm with ⟨tr1, lgr⟩
        rcases lgr with ⟨lg1, er⟩
        cases er with
        | some e =>
          simp only [runBuckets, hc, hr, if_false, Bool.false_eq_true, hR] at hok
          cases hok
        | none =>
          rcases hB : runBuckets env repo k sv del rest with ⟨tr2, rst⟩
          rcases rst with ⟨lg2, rst2⟩
          rcases rst2 with ⟨c2, h2⟩
          simp only [runBuckets, hc, hr, if_false, Bool.false_eq_true, hR, hB] at hok ⊢
          rw [hB] at ih
          have hsum : c2 =
              (List.map (fun b => (removesOf (classify_tags b.2 k sv)).length) rest).sum :=
            ih hok
          simp only [List.map_cons, List.sum_cons]
          rw [hsum, hc]
          rfl

theorem runBuckets_warn (env : Env) (repo : String) (k : Nat) (sv del : Bool)
    (bs : List (String × List String))
    (hok : (runBuckets env repo k sv del bs).2.2.2 = none) :
    ∀ pb ∈ bs, ∀ t ∈ removesOf (classify_tags pb.2 k sv),
      env.digest repo t = Except.ok none →
        warnLine repo t ∈ (runBuckets env repo k sv del bs).2.1 := by
  induction bs with
  | nil => intro pb hpb; cases hpb
  | cons b rest ih =>
    obtain ⟨pat, btags⟩ := b
    intro pb hpb t ht hdt
    cases hc : classify_tags btags k sv with
    | none => simp only [runBuckets, hc] at hok; cases hok
    | some pr =>
      obtain ⟨kp, rm⟩ := pr
      by_cases hr : rm.isEmpty
      · have hrm : rm = [] := List.isEmpty_iff.mp hr
        simp only [runBuckets, hc, hr, if_true] at hok ⊢
        rcases List.mem_cons.mp hpb with rfl | hpb2
        · simp only [removesOf, hc, hrm] at ht; cases ht
        · exact ih hok pb hpb2 t ht hdt
      · rcases hR : runTags env repo del rm with ⟨tr1, lgr⟩
        rcases lgr with ⟨lg1, er⟩
        cases er with
        | some e =>
          simp only [runBuckets, hc, hr, if_false, Bool.false_eq_true, hR] at hok
          cases hok
        | none =>
          rcases hB : runBuckets env repo k sv del rest with ⟨tr2, rst⟩
          rcases rst with ⟨lg2, rst2⟩
          rcases rst2 with ⟨c2, h2⟩
          simp only [runBuckets, hc, hr, if_false, Bool.false_eq_true, hR, hB] at hok ⊢
          rw [hB] at ih
          rcases List.mem_cons.mp hpb with rfl | hpb2
          · have hw := runTags_warn env repo del rm (by rw [hR]) t
              (by simpa [removesOf, hc] using ht) hdt
            rw [hR] at hw
            exact List.mem_append_left _ (List.mem_cons_of_mem _ hw)
          · exact List.mem_append_right _ (ih hok pb hpb2 t ht hdt)

theorem runBuckets_no_deletes_dry (env : Env) (repo : String) (k : Nat) (sv : Bool)
    (bs : List (String × List String)) :
    (runBuckets env repo k sv false bs).1.filter isDeleteCall = [] := by
  induction bs with
  | nil => rfl
  | cons b rest ih =>
    obtain ⟨pat, btags⟩ := b
    cases hc : classify_tags btags k sv with
    | none => simp [runBuckets, hc]
    | some pr =>
      obtain ⟨kp, rm⟩ := pr
      by_cases hr : rm.isEmpty
      · simp only [runBuckets, hc, hr, if_true]
        exact ih
      · rcases hR : runTags env repo false rm with ⟨tr1, lgr⟩
        rcases lgr with ⟨lg1, er⟩
        have htr : tr1.filter isDeleteCall = [] := by
          have := runTags_no_deletes_dry env repo rm
          rw [hR] at this
          exact this
        cases er with
        | some e => simp only [runBuckets, hc, hr, if_false, Bool.false_eq_true, hR]; exact htr
        | none =>
          simp only [runBuckets, hc, hr, if_false, Bool.false_eq_true, hR]
          rcases hB : runBuckets env repo k sv false rest with ⟨tr2, rst⟩
          rw [hB] at ih
          simp [List.filter_append, htr, ih]

theorem runBuckets_deletes_are_resolved (env : Env) (repo : String) (k : Nat) (sv : Bool)
    (bs : List (String × List String)) :
    (runBuckets env repo k sv true bs).1.filter isDeleteCall =
      (runBuckets env repo k sv true bs).1.filterMap (resolveOf env) := by
  induction bs with
  | nil => rfl
  | cons b rest ih =>
    obtain ⟨pat, btags⟩ := b
    cases hc : classify_tags btags k sv with
    | none => simp [runBuckets, hc]
    | some pr =>
      obtain ⟨kp, rm⟩ := pr
      by_cases hr : rm.isEmpty
      · simp only [runBuckets, hc, hr, if_true]
        exact ih
      · rcases hR : runTags env repo true rm with ⟨tr1, lgr⟩
        rcases lgr with ⟨lg1, er⟩
        have htr : tr1.filter isDeleteCall = tr1.filterMap (resolveOf env) := by
          have := runTags_deletes_are_resolved env repo rm
          rw [hR] at this
          exact this
        cases er with
        | some e => simp only [runBuckets, hc, hr, if_false, Bool.false_eq_true, hR]; exact htr
        | none =>
          simp only [runBuckets, hc, hr, if_false, Bool.false_eq_true, hR]
          rcases hB : runBuckets env repo k sv true rest with ⟨tr2, rst⟩
          rw [hB] at ih
          simp [List.filter_append, List.filterMap_append, htr, ih]

theorem runBuckets_success_resolved (env : Env) (repo : String) (k : Nat) (sv : Bool)
    (bs : List (String × List String))
    (hok : (runBuckets env repo k sv true bs).2.2.2 = none) :
    (runBuckets env repo k sv true bs).1.filterMap (resolveOf env) =
      (bs.flatMap (fun b => removesOf (classify_tags b.2 k sv))).filterMap
        (tagResolve env repo) := by
  induction bs with
  | nil => rfl
  | cons b rest ih =>
    obtain ⟨pat, btags⟩ := b
    cases hc : classify_tags btags k sv with
    | none => simp only [runBuckets, hc] at hok; cases hok
    | some pr =>
      obtain ⟨kp, rm⟩ := pr
      by_cases hr : rm.isEmpty
      · have hrm : rm = [] := List.isEmpty_iff.mp hr
        simp only [runBuckets, hc, hr, if_true] at hok ⊢
        rw [ih hok]
        simp [removesOf, hc, hrm]
      · rcases hR : runTags env repo true rm with ⟨tr1, lgr⟩
        rcases lgr with ⟨lg1, er⟩
        cases er with
        | some e =>
          simp only [runBuckets, hc, hr, if_false, Bool.false_eq_true, hR] at hok
          cases hok
        | none =>
          have htr : tr1.filterMap (resolveOf env) = rm.filterMap (tagResolve env repo) := by
            have := runTags_success_resolved env repo rm (by rw [hR])
            rw [hR] at this
            exact this
          rcases hB : runBuckets env repo k sv true rest with ⟨tr2, rst⟩
          rcases rst with ⟨lg2, rst2⟩
          rcases rst2 with ⟨c2, h2⟩
          simp only [runBuckets, hc, hr, if_false, Bool.false_eq_true, hR, hB] at hok ⊢
          rw [hB] at ih
          have hrest : List.filterMap (resolveOf env) tr2 =
              List.filterMap (tagResolve env repo)
                (rest.flatMap fun b => removesOf (classify_tags b.2 k sv)) :=
            ih hok
          simp only [List.flatMap_cons]
          rw [List.filterMap_append, List.filterMap_append, htr, hrest, hc]
          rfl

theorem runBuckets_delete_origin (env : Env) (repo : String) (k : Nat) (sv del : Bool)
    (bs : List (String × List String)) :
    ∀ cl ∈ (runBuckets env repo k sv del bs).1, isDeleteCall cl = true →
      ∃ t d, cl = NetCall.deleteManifest repo d ∧ env.digest repo t = Except.ok (some d) := by
  induction bs with
  | nil => intro cl hcl; cases hcl
  | cons b rest ih =>
    obtain ⟨pat, btags⟩ := b
    intro cl hcl hdel
    cases hc : classify_tags btags k sv with
    | none => simp only [runBuckets, hc] at hcl; cases hcl
    | some pr =>
      obtain ⟨kp, rm⟩ := pr
      by_cases hr : rm.isEmpty
      · simp only [runBuckets, hc, hr, if_true] at hcl
        exact ih cl hcl hdel
      · rcases hR : runTags env repo del rm with ⟨tr1, lgr⟩
        rcases lgr with ⟨lg1, er⟩
        have horig := runTags_delete_origin env repo del rm
        rw [hR] at horig
        cases er with
        | some e =>
          simp only [runBuckets, hc, hr, if_false, Bool.false_eq_true, hR] at hcl
          exact horig cl hcl hdel
        | none =>
          rcases hB : runBuckets env repo k sv del rest with ⟨tr2, rst⟩
          simp only [runBuckets, hc, hr, if_false, Bool.false_eq_true, hR, hB] at hcl
          rw [hB] at ih
          rcases List.mem_append.mp hcl with h | h
          · exact horig cl h hdel
          · exact ih cl h hdel

/-! ## Claims C3, C6, C10: the Repository Worker -/

/-- Claim C3, counterexample: a worker whose single removal candidate
resolves to a clean not-found still reports a deletion count of 1,
because the count is bumped by the remove-set size before digest
resolution; the claim says the count should be 0 (the number of
candidates whose digest resolved). -/
theorem c3_counterexample :
    (runWorker env3 [] 1 false false "r").2 =
      WorkerOutcome.ok [foundLine "r" 1 ".*", warnLine "r" "a"] 1 ∧
    env3.digest "r" "a" = Except.ok none := ⟨by decide, rfl⟩

/-- Claim C3 (amended): on a successfully completing worker run, every
remove-set tag whose digest resolution cleanly reports not-found gets a
warning log line and never a delete call (every delete call stems from
a digest that resolved), but the tag IS included in the deletion count:
the final count is the total size of the remove-sets, regardless of
digest resolution. -/
theorem c3_not_found_counted (env : Env) (rt : List Rule) (k : Nat) (sv del : Bool)
    (repo : String) (tags lg : List String) (c : Nat)
    (htl : env.tagList repo = Except.ok tags)
    (hok : (runWorker env rt k sv del repo).2 = WorkerOutcome.ok lg c) :
    c = ((get_matching_tags tags rt).map
          (fun b => (removesOf (classify_tags b.2 k sv)).length)).sum ∧
    (∀ pb ∈ get_matching_tags tags rt,
      ∀ t ∈ removesOf (classify_tags pb.2 k sv), env.digest repo t = Except.ok none →
        warnLine repo t ∈ lg) ∧
    (∀ cl ∈ (runWorker env rt k sv del repo).1, isDeleteCall cl = true →
      ∃ t d, cl = NetCall.deleteManifest repo d ∧ env.digest repo t = Except.ok (some d)) := by
  by_cases hbe : (get_matching_tags tags rt).isEmpty
  · have hbee : get_matching_tags tags rt = [] := List.isEmpty_iff.mp hbe
    simp only [runWorker, htl, hbe, if_true] at hok ⊢
    cases hok
    refine ⟨by rw [hbee]; rfl, ?_, ?_⟩
    · intro pb hpb; rw [hbee] at hpb; cases hpb
    · intro cl hcl hdel
      simp only [List.mem_cons, List.not_mem_nil, or_false] at hcl
      rw [hcl] at hdel
      simp [isDeleteCall] at hdel
  · rcases hB : runBuckets env repo k sv del (get_matching_tags tags rt) with ⟨tr, rst⟩
    rcases rst with ⟨blg, rst2⟩
    rcases rst2 with ⟨bc, halt⟩
    cases halt with
    | some h =>
      cases h with
      | panicked => simp only [runWorker, htl, hbe, hB] at hok; cases hok
      | errored e => simp only [runWorker, htl, hbe, hB] at hok; cases hok
    | none =>
      have htr : (runWorker env rt k sv del repo).1 = NetCall.tagList repo :: tr := by
        simp only [runWorker, htl, hbe, hB, Bool.false_eq_true, if_false]
      simp only [runWorker, htl, hbe, hB] at hok
      have hcc : c = bc := by cases hok; rfl
      have hlg : lg = if bc = 0 then blg ++ [noEligibleLine repo] else blg := by
        cases hok; rfl
      have hcount := runBuckets_count env repo k sv del (get_matching_tags tags rt)
        (by rw [hB])
      rw [hB] at hcount
      have hwarn := runBuckets_warn env repo k sv del (get_matching_tags tags rt)
        (by rw [hB])
      have horig := runBuckets_delete_origin env repo k sv del (get_matching_tags tags rt)
      rw [hB] at hwarn horig
      refine ⟨by rw [hcc]; exact hcount, ?_, ?_⟩
      · intro pb hpb t ht hdt
        have hmem := hwarn pb hpb t ht hdt
        rw [hlg]
        by_cases hz : bc = 0
        · rw [if_pos hz]
          exact List.mem_append_left _ hmem
        · rw [if_neg hz]
          exact hmem
      · intro cl hcl hdel
        rw [htr] at hcl
        rcases List.mem_cons.mp hcl with rfl | h
        · simp [isDeleteCall] at hdel
        · exact horig cl h hdel

/-- Claim C3, witness: the amended count and warning facts at the
concrete not-found environment. -/
theorem c3_witness :
    1 = ((get_matching_tags ["b", "a"] []).map
          (fun b => (removesOf (classify_tags b.2 1 false)).length)).sum ∧
    warnLine "r" "a" ∈ [foundLine "r" 1 ".*", warnLine "r" "a"] := by
  have h := c3_not_found_counted env3 [] 1 false false "r" ["b", "a"]
    [foundLine "r" 1 ".*", warnLine "r" "a"] 1 rfl (by decide)
  exact ⟨h.1, h.2.1 (".*", ["b", "a"]) (by decide) "a" (by decide) rfl⟩

/-- Claim C6: with the delete flag off the worker issues no delete call
on any path; with it on, the delete calls issued are exactly one per
digest resolution that returned a digest, and on a successfully
completing run that means exactly one delete call per remove-set tag
whose digest resolved. -/
theorem c6_delete_frame (env : Env) (rt : List Rule) (k : Nat) (sv : Bool) (repo : String) :
    ((runWorker env rt k sv false repo).1.filter isDeleteCall = []) ∧
    ((runWorker env rt k sv true repo).1.filter isDeleteCall =
      (runWorker env rt k sv true repo).1.filterMap (resolveOf env)) ∧
    (∀ tags lg c, env.tagList repo = Except.ok tags →
      (runWorker env rt k sv true repo).2 = WorkerOutcome.ok lg c →
      (runWorker env rt k sv true repo).1.filter isDeleteCall =
        ((get_matching_tags tags rt).flatMap
          (fun b => removesOf (classify_tags b.2 k sv))).filterMap (tagResolve env repo)) := by
  refine ⟨?_, ?_, ?_⟩
  · cases htl : env.tagList repo with
    | error e => simp [runWorker, htl, isDeleteCall]
    | ok tags =>
      by_cases hbe : (get_matching_tags tags rt).isEmpty
      · simp [runWorker, htl, hbe, isDeleteCall]
      · rcases hB : runBuckets env repo k sv false (get_matching_tags tags rt) with ⟨tr, rst⟩
        rcases rst with ⟨blg, rst2⟩
        rcases rst2 with ⟨bc, halt⟩
        have hdry := runBuckets_no_deletes_dry env repo k sv (get_matching_tags tags rt)
        rw [hB] at hdry
        cases halt with
        | some h =>
          cases h with
          | panicked => simp only [runWorker, htl, hbe, hB]
                        simpa [isDeleteCall] using hdry
          | errored e => simp only [runWorker, htl, hbe, hB]
                         simpa [isDeleteCall] using hdry
        | none => simp only [runWorker, htl, hbe, hB]
                  simpa [isDeleteCall] using hdry
  · cases htl : env.tagList repo with
    | error e => simp [runWorker, htl, isDeleteCall, resolveOf]
    | ok tags =>
      by_cases hbe : (get_matching_tags tags rt).isEmpty
      · simp [runWorker, htl, hbe, isDeleteCall, resolveOf]
      · rcases hB : runBuckets env repo k sv true (get_matching_tags tags rt) with ⟨tr, rst⟩
        rcases rst with ⟨blg, rst2⟩
        rcases rst2 with ⟨bc, halt⟩
        have hres := runBuckets_deletes_are_resolved env repo k sv (get_matching_tags tags rt)
        rw [hB] at hres
        cases halt with
        | some h =>
          cases h with
          | panicked => simp only [runWorker, htl, hbe, hB]
                        simpa [isDeleteCall, resolveOf] using hres
          | errored e => simp only [runWorker, htl, hbe, hB]
                         simpa [isDeleteCall, resolveOf] using hres
        | none => simp only [runWorker, htl, hbe, hB]
                  simpa [isDeleteCall, resolveOf] using hres
  · intro tags lg c htl hok
    by_cases hbe : (get_matching_tags tags rt).isEmpty
    · have hbee : get_matching_tags tags rt = [] := List.isEmpty_iff.mp hbe
      simp [runWorker, htl, hbe, isDeleteCall, hbee]
    · rcases hB : runBuckets env repo k sv true (get_matching_tags tags rt) with ⟨tr, rst⟩
      rcases rst with ⟨blg, rst2⟩
      rcases rst2 with ⟨bc, halt⟩
      cases halt with
      | some h =>
        cases h with
        | panicked => simp only [runWorker, htl, hbe, hB] at hok; cases hok
        | errored e => simp only [runWorker, htl, hbe, hB] at hok; cases hok
      | none =>
        have hres := runBuckets_deletes_are_resolved env repo k sv (get_matching_tags tags rt)
        have hsucc := runBuckets_success_resolved env repo k sv (get_matching_tags tags rt)
          (by rw [hB])
        rw [hB] at hres hsucc
        simp only [runWorker, htl, hbe, hB]
        simpa [isDeleteCall, resolveOf] using hres.trans hsucc

/-- Claim C6, witness: the dry-run frame and the execute-mode delete
trace at a concrete healthy registry. -/
theorem c6_witness :
    (runWorker env6 [] 1 false false "good").1.filter isDeleteCall = [] ∧
    (runWorker env6 [] 1 false true "good").1.filter isDeleteCall =
      [NetCall.deleteManifest "good" "sha:t1"] := by
  have h := c6_delete_frame env6 [] 1 false "good"
  refine ⟨h.1, ?_⟩
  have h3 := h.2.2 ["t2", "t1"]
    [foundLine "good" 1 ".*", toDeleteLine "good" "t1", deletedLine "good" "t1"] 1
    rfl (by decide)
  rw [h3]
  decide

/-- Claim C10: a digest HEAD response with a successful status (neither
404 nor any 400-599 error status) but no `docker-content-digest` header
makes `get_tag_digest` return the absent digest, and the worker loop
then treats the tag exactly like a not-found manifest: it logs the
warning, issues no delete call for it, and continues without a
repository-scoped error. -/
theorem c10_missing_header_is_warning (responses : String → String → HttpResponse)
    (env : Env) (repo tag : String)
    (henv : env.digest = fun r t => get_tag_digest (responses r t))
    (h404 : (responses repo tag).status ≠ 404)
    (herr : ¬(400 ≤ (responses repo tag).status ∧ (responses repo tag).status ≤ 599))
    (hhdr : (responses repo tag).headers.find?
      (fun h => h.1 = "docker-content-digest") = none) :
    env.digest repo tag = Except.ok none ∧
    ∀ del rest, runTags env repo del (tag :: rest) =
      (NetCall.digest repo tag :: (runTags env repo del rest).1,
       warnLine repo tag :: (runTags env repo del rest).2.1,
       (runTags env repo del rest).2.2) := by
  have hd : env.digest repo tag = Except.ok none := by
    rw [henv]
    simp [get_tag_digest, h404, herr, hhdr]
  refine ⟨hd, ?_⟩
  intro del rest
  rw [runTags, hd]

/-- Claim C10, witness: a headerless 200 response at a concrete
environment. -/
theorem c10_witness :
    env10.digest "repo" "t" = Except.ok none ∧
    runTags env10 "repo" true ["t"] =
      ([NetCall.digest "repo" "t"], [warnLine "repo" "t"], none) := by
  have h := c10_missing_header_is_warning resp10 env10 "repo" "t" rfl
    (by decide) (by decide) rfl
  refine ⟨h.1, ?_⟩
  rw [h.2 true []]
  rfl

/-! ## Claim C7: the Rule Compiler -/

/-- Claim C7: rule compilation is all-or-nothing and gates the network:
the empty pattern list compiles to the empty rule set; a successful
compilation covers every pattern in order; the first invalid pattern
determines the failure (later patterns are never reached); and a
failure of either the tag rule set or the image rule set makes `main`
return the `Invalid tag regex` error with an empty network trace — the
catalog is never fetched. -/
theorem c7_rule_compilation (env : Env) (k : Nat) (sv del : Bool) :
    (compileRules env.compile [] = Except.ok []) ∧
    (∀ ps ms, compileRules env.compile ps = Except.ok ms → ms.map Prod.fst = ps) ∧
    (∀ good bad rest e, (∀ p ∈ good, ∃ m, env.compile p = Except.ok m) →
      env.compile bad = Except.error e →
      compileRules env.compile (good ++ bad :: rest) = Except.error e) ∧
    (∀ tagPats imagePats e, compileRules env.compile tagPats = Except.error e →
      runMain env tagPats imagePats k sv del =
        ([], Except.error ("Invalid tag regex: " ++ e))) ∧
    (∀ tagPats imagePats rts e, compileRules env.compile tagPats = Except.ok rts →
      compileRules env.compile imagePats = Except.error e →
      runMain env tagPats imagePats k sv del =
        ([], Except.error ("Invalid tag regex: " ++ e))) := by
  refine ⟨rfl, ?_, ?_, ?_, ?_⟩
  · intro ps
    induction ps with
    | nil =>
      intro ms hms
      cases hms
      rfl
    | cons p ps ih =>
      intro ms hms
      cases hp : env.compile p with
      | error e => rw [compileRules, hp] at hms; cases hms
      | ok m =>
        cases hr : compileRules env.compile ps with
        | error e => rw [compileRules, hp, hr] at hms; cases hms
        | ok ms2 =>
          rw [compileRules, hp, hr] at hms
          cases hms
          simp only [List.map_cons]
          rw [ih ms2 hr]
  · intro good
    induction good with
    | nil =>
      intro bad rest e _ hbad
      rw [List.nil_append, compileRules, hbad]
    | cons g gs ih =>
      intro bad rest e hg hbad
      obtain ⟨m, hm⟩ := hg g (List.mem_cons_self g gs)
      rw [List.cons_append, compileRules, hm,
        ih bad rest e (fun p hp => hg p (List.mem_cons_of_mem g hp)) hbad]
  · intro tagPats imagePats e h
    rw [runMain, h]
  · intro tagPats imagePats rts e h1 h2
    rw [runMain, h1, h2]

/-- Claim C7, witness: compilation fails on the first invalid pattern
and issues no network call at a concrete environment. -/
theorem c7_witness :
    compileRules env7.compile [] = Except.ok [] ∧
    compileRules env7.compile ["(", "x"] = Except.error "unclosed group" ∧
    runMain env7 ["(", "x"] [] 1 false false =
      ([], Except.error "Invalid tag regex: unclosed group") := by
  have h := c7_rule_compilation env7 1 false false
  refine ⟨h.1, ?_, ?_⟩
  · have h3 := h.2.2.1 [] "(" ["x"] "unclosed group" (fun p hp => absurd hp (by simp)) rfl
    simpa using h3
  · exact h.2.2.2.1 ["(", "x"] [] "unclosed group" rfl

/-! ## Claim C8: the Run Orchestrator -/

/-- Claim C8: with both rule sets compiled and the catalog fetched (and
no worker panicking), the run completes with a summary in which the
total is the sum of the per-worker counts (a failed worker contributes
zero), the error list collects exactly the failed workers' errors, and
the printed transcript places the single aggregated error block after
all per-repository logs and before the final summary lines.  A
repository whose tag-list fetch fails is a failed worker: it counts
zero, contributes exactly its one fetch error, and prints no log. -/
theorem c8_error_isolation (env : Env) (tagPats imagePats : List String) (k : Nat)
    (sv del : Bool) (regexTags regexImages : List Rule) (repos : List String)
    (h1 : compileRules env.compile tagPats = Except.ok regexTags)
    (h2 : compileRules env.compile imagePats = Except.ok regexImages)
    (h3 : env.catalog = Except.ok repos)
    (hnp : ∀ repo ∈ admitted regexImages repos,
      (runWorker env regexTags k sv del repo).2 ≠ WorkerOutcome.panicked) :
    (runMain env tagPats imagePats k sv del).2 =
      Except.ok ⟨((admitted regexImages repos).map
          (fun repo => workerCount (runWorker env regexTags k sv del repo).2)).sum,
        (admitted regexImages repos).filterMap
          (fun repo => workerErr (runWorker env regexTags k sv del repo).2),
        (repos.filter (fun repo =>
            !(regexImages.isEmpty || regexImages.any (fun ri => ri.2 repo)))).map
          (fun _ => skipLine)
          ++ (admitted regexImages repos).flatMap
            (fun repo => workerLog (runWorker env regexTags k sv del repo).2)
          ++ (if ((admitted regexImages repos).filterMap
                (fun repo => workerErr (runWorker env regexTags k sv del repo).2)).isEmpty
              then []
              else [errorBlock ((admitted regexImages repos).filterMap
                (fun repo => workerErr (runWorker env regexTags k sv del repo).2))])
          ++ summaryLines del (((admitted regexImages repos).map
              (fun repo => workerCount (runWorker env regexTags k sv del repo).2)).sum)⟩ ∧
    (∀ repo ∈ admitted regexImages repos, ∀ e, env.tagList repo = Except.error e →
      workerCount (runWorker env regexTags k sv del repo).2 = 0 ∧
      workerErr (runWorker env regexTags k sv del repo).2 = some e ∧
      workerLog (runWorker env regexTags k sv del repo).2 = []) := by
  constructor
  · have hany : (List.map (fun repo => runWorker env regexTags k sv del repo)
        (admitted regexImages repos)).any
          (fun r => decide (r.2 = WorkerOutcome.panicked)) = false := by
      rw [List.any_eq_false]
      intro r hr
      obtain ⟨repo, hrepo, rfl⟩ := List.mem_map.mp hr
      simp only [decide_eq_true_eq]
      exact hnp repo hrepo
    simp only [runMain, h1, h2, h3, hany, Bool.false_eq_true, if_false,
      List.map_map, List.filterMap_map, List.flatMap_map, Function.comp_def]
  · intro repo _hrepo e he
    simp [runWorker, he, workerCount, workerErr, workerLog]

/-- Claim C8, witness: one failing and one healthy repository; the
failing one contributes zero count and one error, the healthy one still
counts, and the error block follows the logs. -/
theorem c8_witness :
    (runMain env8 [] [] 1 false false).2 =
      Except.ok ⟨1, ["fetch failed"],
        [foundLine "good" 1 ".*", toDeleteLine "good" "t1",
         errorBlock ["fetch failed"],
         "\n\tFound a total of 1 tag(s) to delete",
         "\n\tDelete flag (-d/--delete) not specified, none of the above have actually been deleted."]⟩ ∧
    workerCount (runWorker env8 [] 1 false false "bad").2 = 0 ∧
    workerErr (runWorker env8 [] 1 false false "bad").2 = some "fetch failed" := by
  have h := c8_error_isolation env8 [] [] 1 false false [] [] ["bad", "good"]
    rfl rfl rfl (by decide)
  refine ⟨?_, ?_, ?_⟩
  · rw [h.1]
    congr 1
  · exact (h.2 "bad" (by decide) "fetch failed" rfl).1
  · exact (h.2 "bad" (by decide) "fetch failed" rfl).2.1

end DRC
